import Mathlib

/-!
Verification of the cacheflow distributed cache against its specification.

The development shallowly embeds the Go source:

* Go `map` values are modelled as association lists (`List (κ × β)`); Go map
  iteration order is unspecified, the association list fixes one concrete
  order (insertion order).  None of the settled claims depends on a tie
  broken by iteration order.
* `time.Now().UnixNano()` timestamps are passed explicitly as `Int`
  nanosecond values (`now` parameters); the two `time.Now()` calls inside
  one locked critical section are modelled as the same instant.
* `interface{}` payloads are a type parameter `α`.
* The 32-bit md5 projection `hashKey` is a function parameter
  `hf : String → Nat`; it is fixed across one run of the program.
-/

/-- Association list lookup: Go `v, ok := m[k]` (first binding wins; the
embedding keeps at most one binding per key). -/
def alLookup {κ β : Type} [DecidableEq κ] : List (κ × β) → κ → Option β
  | [], _ => none
  | (k2, v) :: rest, k => if k2 = k then some v else alLookup rest k

/-- Association list insert-or-overwrite: Go `m[k] = v`. -/
def alInsert {κ β : Type} [DecidableEq κ] (k : κ) (v : β) : List (κ × β) → List (κ × β)
  | [] => [(k, v)]
  | (k2, v2) :: rest => if k2 = k then (k, v) :: rest else (k2, v2) :: alInsert k v rest

/-- Association list delete: Go `delete(m, k)`. -/
def alErase {κ β : Type} [DecidableEq κ] (k : κ) (m : List (κ × β)) : List (κ × β) :=
  m.filter (fun p => decide (p.1 ≠ k))

/-- Keys of an association list. -/
def alKeys {κ β : Type} (m : List (κ × β)) : List κ :=
  m.map Prod.fst

/-- CacheItem from internal/cache (value, absolute expiration in
nanoseconds with 0 meaning never, last access time). -/
structure CacheItem (α : Type) where
  Value : α
  Expiration : Int
  LastAccess : Int
deriving DecidableEq

/-- Cache from internal/cache: items map, eviction policy name, capacity,
and the LFU access counter map. -/
structure Cache (α : Type) where
  items : List (String × CacheItem α)
  evictionType : String
  maxItems : Nat
  accessCount : List (String × Nat)
deriving DecidableEq

/-- NewCache. -/
def newCache (α : Type) (evictionType : String) (maxItems : Nat) : Cache α :=
  { items := [], evictionType := evictionType, maxItems := maxItems, accessCount := [] }

/-- Victim key computed by the scan in Cache.evictLRU: oldestAccess starts
at the current time, oldestKey at the empty string. -/
def Cache.lruVictim {α : Type} (c : Cache α) (now : Int) : String :=
  (c.items.foldl
    (fun acc p => if p.2.LastAccess < acc.1 then (p.2.LastAccess, p.1) else acc)
    (now, "")).2

/-- Cache.evictLRU: delete the victim from items and accessCount. -/
def Cache.evictLRU {α : Type} (c : Cache α) (now : Int) : Cache α :=
  { c with items := alErase (c.lruVictim now) c.items,
           accessCount := alErase (c.lruVictim now) c.accessCount }

/-- Victim key computed by the scan in Cache.evictLFU.  The scan runs over
the accessCount map only (Go: `for k, v := range c.accessCount`), with the
running least count starting at the int value -1. -/
def Cache.lfuVictim {α : Type} (c : Cache α) : String :=
  (c.accessCount.foldl
    (fun acc p => if acc.1 = -1 ∨ (p.2 : Int) < acc.1 then ((p.2 : Int), p.1) else acc)
    ((-1 : Int), "")).2

/-- Cache.evictLFU: delete the victim from items and accessCount. -/
def Cache.evictLFU {α : Type} (c : Cache α) : Cache α :=
  { c with items := alErase c.lfuVictim c.items,
           accessCount := alErase c.lfuVictim c.accessCount }

/-- Cache.evict dispatches on the policy string: "lru" uses evictLRU,
anything else uses evictLFU. -/
def Cache.evict {α : Type} (c : Cache α) (now : Int) : Cache α :=
  if c.evictionType = "lru" then c.evictLRU now else c.evictLFU

/-- Key the eviction dispatch will delete (for stating theorems). -/
def Cache.evictedKey {α : Type} (c : Cache α) (now : Int) : String :=
  if c.evictionType = "lru" then c.lruVictim now else c.lfuVictim

/-- Cache.Set: evict when `len(items) >= maxItems` (whether or not the key
is already present), then store the entry with
`Expiration = now + ttl` and `LastAccess = now`.  `ttl` is the
`time.Duration` argument in nanoseconds.  Note the source computes the
expiration unconditionally: a zero ttl yields `Expiration = now`, not the
"never expires" sentinel 0. -/
def Cache.Set {α : Type} (c : Cache α) (key : String) (value : α) (ttl now : Int) : Cache α :=
  let c1 := if c.items.length ≥ c.maxItems then c.evict now else c
  { c1 with items := alInsert key { Value := value, Expiration := now + ttl, LastAccess := now } c1.items }

/-- Result of Cache.Get: the returned value, the found flag, and the cache
state after the call (Get mutates: expiry removal, or metadata update). -/
structure GetResult (α : Type) where
  value : Option α
  found : Bool
  cache : Cache α
deriving DecidableEq

/-- Cache.Get: miss on absent key; on `Expiration > 0 && Expiration < now`
delete the entry inline and miss; on hit update LastAccess and increment
accessCount. -/
def Cache.Get {α : Type} (c : Cache α) (key : String) (now : Int) : GetResult α :=
  match alLookup c.items key with
  | none => { value := none, found := false, cache := c }
  | some item =>
    if item.Expiration > 0 ∧ item.Expiration < now then
      { value := none, found := false,
        cache := { c with items := alErase key c.items, accessCount := alErase key c.accessCount } }
    else
      { value := some item.Value, found := true,
        cache := { c with
          items := alInsert key { item with LastAccess := now } c.items,
          accessCount := alInsert key ((alLookup c.accessCount key).getD 0 + 1) c.accessCount } }

/-- Cache.Delete: remove the key from items and accessCount. -/
def Cache.Delete {α : Type} (c : Cache α) (key : String) : Cache α :=
  { c with items := alErase key c.items, accessCount := alErase key c.accessCount }

/-- C1: calling set(k, v, ttl) with ttl == 0 does NOT store a no-expiry
entry.  The source stores `Expiration = now + 0 = now` (here 5), which is
positive, so a get one nanosecond later finds `Expiration > 0` and
`Expiration < now`, deletes the entry inline, and reports a miss.  The
sentinel check `Expiration > 0` in Get shows 0 was meant as the
"never expires" marker that Set never produces. -/
theorem claim_C1_ttl_zero_entry_expires :
    alLookup ((newCache String "lru" 100).Set "k" "v" 0 5).items "k" =
      some { Value := "v", Expiration := 5, LastAccess := 5 } ∧
    (((newCache String "lru" 100).Set "k" "v" 0 5).Get "k" 6).found = false ∧
    (((newCache String "lru" 100).Set "k" "v" 0 5).Get "k" 6).cache.items = [] := by
  decide

/-- C2: a Local Store with capacity 1 under the lfu policy holds 2 items
after two inserts of distinct fresh keys.  evictLFU scans the accessCount
map, which Set never populates (only Get does), so the eviction pass finds
no victim, deletes nothing, and the insert pushes the store over
capacity. -/
theorem claim_C2_lfu_capacity_exceeded :
    ((((newCache String "lfu" 1).Set "a" "A" 0 1).Set "b" "B" 0 2).items.length = 2) ∧
    ((newCache String "lfu" 1).maxItems = 1) := by
  decide

/-- C4: the spec scenario set(x,0); set(y,0); set(z,0); get(x); get(x);
get(y); set(w,0) on a capacity-3 LFU store ends with residents {z, w},
not the claimed {x, y, w}: every ttl-0 entry carries
`Expiration = set time`, so each get finds it expired and deletes it
inline, and set(w) sees only one resident and never evicts.  Re-running
the same sequence with a non-zero ttl (1000ns, nothing expires) shows the
second defect: set(w) triggers evictLFU, which scans only the accessCount
map {x: 2, y: 1} that has no entry for the never-read z, and evicts y,
leaving {x, z, w} - still not the claimed victim z. -/
theorem claim_C4_lfu_scenario_diverges :
    alKeys ((((((((newCache String "lfu" 3).Set "x" "X" 0 1).Set "y" "Y" 0 2).Set "z" "Z" 0
        3).Get "x" 4).cache.Get "x" 5).cache.Get "y" 6).cache.Set "w" "W" 0 7).items =
      ["z", "w"] ∧
    alKeys ((((((((newCache String "lfu" 3).Set "x" "X" 1000 1).Set "y" "Y" 1000 2).Set "z" "Z"
        1000 3).Get "x" 4).cache.Get "x" 5).cache.Get "y" 6).cache.Set "w" "W" 1000 7).items =
      ["x", "z", "w"] ∧
    alLookup ((((((((newCache String "lfu" 3).Set "x" "X" 1000 1).Set "y" "Y" 1000 2).Set "z"
        "Z" 1000 3).Get "x" 4).cache.Get "x" 5).cache.Get "y" 6).cache.Set "w" "W" 1000 7).items
        "y" = none := by
  decide

/-! ### Association list lemmas -/

theorem alKeys_nil {κ β : Type} : alKeys ([] : List (κ × β)) = [] := rfl

theorem alKeys_cons {κ β : Type} (p : κ × β) (m : List (κ × β)) :
    alKeys (p :: m) = p.1 :: alKeys m := rfl

theorem alLookup_alInsert_self {κ β : Type} [DecidableEq κ] (k : κ) (v : β) (m : List (κ × β)) :
    alLookup (alInsert k v m) k = some v := by
  induction m with
  | nil => simp [alInsert, alLookup]
  | cons p rest ih =>
    by_cases h : p.1 = k
    · simp [alInsert, h, alLookup]
    · simp [alInsert, h, alLookup, ih]

theorem alLookup_alInsert_ne {κ β : Type} [DecidableEq κ] {k k2 : κ} (v : β)
    (m : List (κ × β)) (h : k ≠ k2) :
    alLookup (alInsert k v m) k2 = alLookup m k2 := by
  induction m with
  | nil => simp [alInsert, alLookup, h]
  | cons p rest ih =>
    by_cases hp : p.1 = k
    · simp [alInsert, hp, alLookup, h]
    · simp [alInsert, hp, alLookup, ih]

theorem alErase_of_not_mem {κ β : Type} [DecidableEq κ] {k : κ} {m : List (κ × β)}
    (h : k ∉ alKeys m) : alErase k m = m := by
  apply List.filter_eq_self.mpr
  intro p hp
  simp only [decide_eq_true_eq]
  intro hpk
  exact h (hpk ▸ List.mem_map_of_mem Prod.fst hp)

theorem alErase_cons_self {κ β : Type} [DecidableEq κ] {k : κ} {p : κ × β}
    (m : List (κ × β)) (h : p.1 = k) : alErase k (p :: m) = alErase k m := by
  simp [alErase, List.filter_cons, h]

theorem alErase_cons_ne {κ β : Type} [DecidableEq κ] {k : κ} {p : κ × β}
    (m : List (κ × β)) (h : ¬p.1 = k) : alErase k (p :: m) = p :: alErase k m := by
  simp [alErase, List.filter_cons, h]

theorem alLookup_alErase_self {κ β : Type} [DecidableEq κ] (k : κ) (m : List (κ × β)) :
    alLookup (alErase k m) k = none := by
  induction m with
  | nil => simp [alErase, alLookup]
  | cons p rest ih =>
    by_cases hp : p.1 = k
    · rw [alErase_cons_self rest hp]; exact ih
    · rw [alErase_cons_ne rest hp]
      simp [alLookup, hp, ih]

theorem alLookup_alErase_ne {κ β : Type} [DecidableEq κ] {k k2 : κ} (m : List (κ × β))
    (h : k2 ≠ k) :
    alLookup (alErase k m) k2 = alLookup m k2 := by
  induction m with
  | nil => simp [alErase, alLookup]
  | cons p rest ih =>
    by_cases hp : p.1 = k
    · rw [alErase_cons_self rest hp]
      have hq : p.1 ≠ k2 := fun hh => h (hh.symm.trans hp)
      simp [alLookup, hq, ih]
    · rw [alErase_cons_ne rest hp]
      by_cases hq : p.1 = k2
      · simp [alLookup, hq]
      · simp [alLookup, hq, ih]

theorem mem_alKeys_alErase {κ β : Type} [DecidableEq κ] {k k2 : κ} (m : List (κ × β))
    (hm : k2 ∈ alKeys m) (h : k2 ≠ k) : k2 ∈ alKeys (alErase k m) := by
  induction m with
  | nil => simp [alKeys] at hm
  | cons p rest ih =>
    rcases List.mem_cons.mp hm with h1 | h2
    · have hp : ¬p.1 = k := fun hh => h (h1.trans hh)
      rw [alErase_cons_ne rest hp, alKeys_cons]
      exact List.mem_cons.mpr (Or.inl h1)
    · by_cases hp : p.1 = k
      · rw [alErase_cons_self rest hp]; exact ih h2
      · rw [alErase_cons_ne rest hp, alKeys_cons]
        exact List.mem_cons.mpr (Or.inr (ih h2))

theorem alErase_length_of_mem {κ β : Type} [DecidableEq κ] {k : κ} {m : List (κ × β)}
    (hnd : (alKeys m).Nodup) (hk : k ∈ alKeys m) :
    (alErase k m).length = m.length - 1 := by
  induction m with
  | nil => simp [alKeys] at hk
  | cons p rest ih =>
    rcases List.mem_cons.mp hk with h1 | h2
    · have hp : p.1 = k := h1.symm
      have hout : k ∉ alKeys rest := by
        have := (List.nodup_cons.mp (alKeys_cons p rest ▸ hnd)).1
        exact hp ▸ this
      rw [alErase_cons_self rest hp, alErase_of_not_mem hout]
      simp
    · have hp : ¬p.1 = k := by
        intro hh
        exact (List.nodup_cons.mp (alKeys_cons p rest ▸ hnd)).1 (hh ▸ h2)
      have hnd2 : (alKeys rest).Nodup := (List.nodup_cons.mp (alKeys_cons p rest ▸ hnd)).2
      have hlen : rest.length ≥ 1 := by
        rcases rest with _ | _
        · simp [alKeys] at h2
        · simp
      rw [alErase_cons_ne rest hp]
      simp only [List.length_cons]
      rw [ih hnd2 h2]
      omega

theorem alInsert_length_of_mem {κ β : Type} [DecidableEq κ] {k : κ} (v : β)
    {m : List (κ × β)} (hk : k ∈ alKeys m) :
    (alInsert k v m).length = m.length := by
  induction m with
  | nil => simp [alKeys] at hk
  | cons p rest ih =>
    by_cases hp : p.1 = k
    · simp [alInsert, hp]
    · have h2 : k ∈ alKeys rest := by
        rcases List.mem_cons.mp hk with h1 | h2
        · exact absurd h1.symm hp
        · exact h2
      simp [alInsert, hp, ih h2]

theorem alInsert_of_not_mem {κ β : Type} [DecidableEq κ] {k : κ} (v : β)
    {m : List (κ × β)} (hk : k ∉ alKeys m) :
    alInsert k v m = m ++ [(k, v)] := by
  induction m with
  | nil => simp [alInsert]
  | cons p rest ih =>
    have hp : ¬p.1 = k := by
      intro hh
      exact hk (by simp [alKeys, hh])
    have h2 : k ∉ alKeys rest := by
      intro hh
      exact hk (by rw [alKeys_cons]; exact List.mem_cons.mpr (Or.inr hh))
    simp [alInsert, hp, ih h2]

theorem mem_alKeys_alInsert {κ β : Type} [DecidableEq κ] (k k2 : κ) (v : β)
    (m : List (κ × β)) :
    k2 ∈ alKeys (alInsert k v m) ↔ k2 ∈ alKeys m ∨ k2 = k := by
  induction m with
  | nil => simp [alInsert, alKeys]
  | cons p rest ih =>
    by_cases hp : p.1 = k
    · rw [show alInsert k v (p :: rest) = (k, v) :: rest from by simp [alInsert, hp]]
      rw [alKeys_cons, alKeys_cons]
      constructor
      · intro h
        rcases List.mem_cons.mp h with h1 | h1
        · exact Or.inr h1
        · exact Or.inl (List.mem_cons.mpr (Or.inr h1))
      · intro h
        rcases h with h1 | h1
        · rcases List.mem_cons.mp h1 with h3 | h3
          · exact List.mem_cons.mpr (Or.inl (h3.trans hp))
          · exact List.mem_cons.mpr (Or.inr h3)
        · exact List.mem_cons.mpr (Or.inl h1)
    · rw [show alInsert k v (p :: rest) = p :: alInsert k v rest from by simp [alInsert, hp]]
      rw [alKeys_cons, alKeys_cons]
      constructor
      · intro h
        rcases List.mem_cons.mp h with h1 | h1
        · exact Or.inl (List.mem_cons.mpr (Or.inl h1))
        · rcases ih.mp h1 with h3 | h3
          · exact Or.inl (List.mem_cons.mpr (Or.inr h3))
          · exact Or.inr h3
      · intro h
        rcases h with h1 | h1
        · rcases List.mem_cons.mp h1 with h3 | h3
          · exact List.mem_cons.mpr (Or.inl h3)
          · exact List.mem_cons.mpr (Or.inr (ih.mpr (Or.inl h3)))
        · exact List.mem_cons.mpr (Or.inr (ih.mpr (Or.inr h1)))

/-! ### Persistence Engine (internal/cache persistence.go) -/

/-- Liveness test used by saveToDisk on the in-memory (exact int64)
fields: an item is kept unless `Expiration > 0` and already past. -/
def itemLive {α : Type} (it : CacheItem α) (now : Int) : Bool :=
  !(decide (it.Expiration > 0 ∧ it.Expiration < now))

/-- Data map extracted by PersistenceManager.saveToDisk under the read
lock: every non-expired item with its value, expiration and lastAccess.
The write side is lossless: json.Marshal prints the int64 timestamps as
exact decimal numerals, so the file holds the exact values of this
map. -/
def snapshotData {α : Type} (c : Cache α) (now : Int) : List (String × CacheItem α) :=
  c.items.filter (fun p => itemLive p.2 now)

/-- Smallest exponent e with `x < 2^53 * 2^e` (the scale at which x fits
in a 53-bit mantissa).  The fuel argument only bounds the recursion; the
loop stops after at most the bit length of x steps. -/
def findExp : Nat → Nat → Nat → Nat
  | 0, _, e => e
  | fuel + 1, x, e => if x < 2 ^ 53 * 2 ^ e then e else findExp fuel x (e + 1)

/-- Rounding a natural number to the nearest IEEE-754 double
(round-to-nearest, ties-to-even, 53-bit mantissa): exact below 2^53,
otherwise the dropped low bits round the 53-bit mantissa q, with a tie
going to even q. -/
def f64RoundNat (x : Nat) : Nat :=
  if x < 2 ^ 53 then x
  else
    let e := findExp x x 0
    let q := x / 2 ^ e
    let r := x % 2 ^ e
    if 2 * r < 2 ^ e then q * 2 ^ e
    else if 2 * r > 2 ^ e then (q + 1) * 2 ^ e
    else if q % 2 = 0 then q * 2 ^ e else (q + 1) * 2 ^ e

/-- Value an int64 field takes after the decode half of the JSON round
trip in loadFromDisk.  Modelled from the library contract: the file
holds the exact decimal numeral; decoding into a Go interface value
parses every number with strconv.ParseFloat into the nearest IEEE-754
double (ties to even), and the subsequent `int64(...)` conversion in the
restore loop truncates, which is exact because that double is an
integer.  The composition is rounding to 53-bit precision. -/
def f64Round (x : Int) : Int :=
  if x ≥ 0 then (f64RoundNat x.toNat : Int) else -(f64RoundNat (-x).toNat : Int)

/-- Item as the restore loop rebuilds it from the decoded map: the value
payload is carried over, both timestamps have passed through the
float64 decode and int64 truncation. -/
def decodeItem {α : Type} (it : CacheItem α) : CacheItem α :=
  { Value := it.Value, Expiration := f64Round it.Expiration,
    LastAccess := f64Round it.LastAccess }

/-- Skip test of the restore loop, applied to the decoded expiration:
Go reads `expiration` as float64 (the assertion succeeds on every field
saveToDisk wrote), tests `expiration > 0 && int64(expiration) < now`,
and both comparisons see the rounded value. -/
def itemLiveF64 {α : Type} (it : CacheItem α) (now : Int) : Bool :=
  !(decide (f64Round it.Expiration > 0 ∧ f64Round it.Expiration < now))

/-- Restore loop of PersistenceManager.loadFromDisk: for each decoded
entry, skip it when its (rounded) expiration is positive and past,
otherwise insert the rebuilt item and set its access count to 1. -/
def loadFromDisk {α : Type} (c : Cache α) (data : List (String × CacheItem α)) (now : Int) :
    Cache α :=
  data.foldl
    (fun acc p =>
      if f64Round p.2.Expiration > 0 ∧ f64Round p.2.Expiration < now then acc
      else { acc with items := alInsert p.1 (decodeItem p.2) acc.items,
                      accessCount := alInsert p.1 1 acc.accessCount })
    c

theorem loadFromDisk_append {α : Type} (data : List (String × CacheItem α)) (now : Int) :
    ∀ c : Cache α, (∀ k ∈ alKeys data, k ∉ alKeys c.items ∧ k ∉ alKeys c.accessCount) →
      (alKeys data).Nodup →
      (loadFromDisk c data now).items =
        c.items ++ (data.filter (fun p => itemLiveF64 p.2 now)).map
          (fun p => (p.1, decodeItem p.2)) ∧
      (loadFromDisk c data now).accessCount =
        c.accessCount ++ (data.filter (fun p => itemLiveF64 p.2 now)).map (fun p => (p.1, 1)) := by
  induction data with
  | nil => intro c _ _; simp [loadFromDisk]
  | cons p rest ih =>
    intro c hfresh hnd
    have hp := hfresh p.1 (by rw [alKeys_cons]; exact List.mem_cons_self _ _)
    have hndr : (alKeys rest).Nodup := (List.nodup_cons.mp (alKeys_cons p rest ▸ hnd)).2
    have hout : p.1 ∉ alKeys rest := (List.nodup_cons.mp (alKeys_cons p rest ▸ hnd)).1
    have hfreshr : ∀ k ∈ alKeys rest, k ∉ alKeys c.items ∧ k ∉ alKeys c.accessCount := by
      intro k hk
      exact hfresh k (by rw [alKeys_cons]; exact List.mem_cons.mpr (Or.inr hk))
    by_cases hdead : f64Round p.2.Expiration > 0 ∧ f64Round p.2.Expiration < now
    · have hlive : itemLiveF64 p.2 now = false := by simp [itemLiveF64]; omega
      have step : loadFromDisk c (p :: rest) now = loadFromDisk c rest now := by
        simp [loadFromDisk, hdead]
      rw [step]
      have := ih c hfreshr hndr
      simpa [List.filter_cons, hlive] using this
    · have hlive : itemLiveF64 p.2 now = true := by simp [itemLiveF64]; omega
      have step : loadFromDisk c (p :: rest) now =
          loadFromDisk { c with items := alInsert p.1 (decodeItem p.2) c.items,
                                accessCount := alInsert p.1 1 c.accessCount } rest now := by
        simp [loadFromDisk, hdead]
      rw [step]
      have hfresh2 : ∀ k ∈ alKeys rest,
          k ∉ alKeys (alInsert p.1 (decodeItem p.2) c.items) ∧
          k ∉ alKeys (alInsert p.1 1 c.accessCount) := by
        intro k hk
        have hne : k ≠ p.1 := fun hh => hout (hh ▸ hk)
        have hk2 := hfreshr k hk
        constructor
        · intro hmem
          rcases (mem_alKeys_alInsert p.1 k (decodeItem p.2) c.items).mp hmem with h3 | h3
          · exact hk2.1 h3
          · exact hne h3
        · intro hmem
          rcases (mem_alKeys_alInsert p.1 k 1 c.accessCount).mp hmem with h3 | h3
          · exact hk2.2 h3
          · exact hne h3
      have hrec := ih { c with items := alInsert p.1 (decodeItem p.2) c.items,
                               accessCount := alInsert p.1 1 c.accessCount } hfresh2 hndr
      rw [hrec.1, hrec.2] at *
      constructor
      · show alInsert p.1 (decodeItem p.2) c.items ++ _ = _
        rw [alInsert_of_not_mem _ hp.1]
        simp [List.filter_cons, hlive]
      · show alInsert p.1 1 c.accessCount ++ _ = _
        rw [alInsert_of_not_mem _ hp.2]
        simp [List.filter_cons, hlive]

/-- Store with timestamps that no IEEE-754 double represents: both
2^53 + 1 and 2^53 + 3 round (ties to even, respectively up) during the
JSON decode of a restore. -/
def exStoreC7 : Cache String :=
  { items := [("a", { Value := "A", Expiration := 9007199254740993,
                      LastAccess := 9007199254740995 })],
    evictionType := "lru", maxItems := 10, accessCount := [] }

/-- C7 counterexample: restoring a snapshot does NOT keep the surviving
key's expiration and last-access metadata.  The snapshot file holds the
exact decimals 2^53 + 1 and 2^53 + 3, but loadFromDisk decodes them as
float64 and truncates back, yielding 2^53 and 2^53 + 4, so the restored
entry differs from the original in both timestamp fields. -/
theorem claim_C7_metadata_counterexample :
    alLookup (loadFromDisk (newCache String "lru" 10) (snapshotData exStoreC7 5) 5).items "a" =
      some { Value := "A", Expiration := 9007199254740992, LastAccess := 9007199254740996 } ∧
    alLookup exStoreC7.items "a" =
      some { Value := "A", Expiration := 9007199254740993, LastAccess := 9007199254740995 } ∧
    alLookup (loadFromDisk (newCache String "lru" 10) (snapshotData exStoreC7 5) 5).items "a" ≠
      alLookup exStoreC7.items "a" := by
  decide

/-- C7 as amended: restoring a Local Store from a snapshot of S into a
fresh store yields exactly the entries of S that are live at the
snapshot time t1 (exact comparison) and whose decoded expiration is
live at the restore time t2, each with its value preserved, its
expiration and last-access rounded to the nearest IEEE-754 double by
the JSON decode (the identity below 2^53), and its access count reset
to 1. -/
theorem claim_C7_restore_snapshot_amended {α : Type} (S : Cache α) (t1 t2 : Int)
    (evictionType : String) (maxItems : Nat)
    (hnd : (alKeys S.items).Nodup) :
    (loadFromDisk (newCache α evictionType maxItems) (snapshotData S t1) t2).items =
      (S.items.filter (fun p => itemLiveF64 p.2 t2 && itemLive p.2 t1)).map
        (fun p => (p.1, decodeItem p.2)) ∧
    (loadFromDisk (newCache α evictionType maxItems) (snapshotData S t1) t2).accessCount =
      (S.items.filter (fun p => itemLiveF64 p.2 t2 && itemLive p.2 t1)).map
        (fun p => (p.1, 1)) := by
  have hsub : (alKeys (snapshotData S t1)).Sublist (alKeys S.items) :=
    List.Sublist.map Prod.fst (List.filter_sublist S.items)
  have hnds : (alKeys (snapshotData S t1)).Nodup := hnd.sublist hsub
  have h := loadFromDisk_append (snapshotData S t1) t2 (newCache α evictionType maxItems)
    (by intro k _; exact ⟨by simp [newCache, alKeys], by simp [newCache, alKeys]⟩) hnds
  rw [h.1, h.2]
  simp [newCache, snapshotData, List.filter_filter]

/-- Witness for the amended C7 on a concrete store: key b is already
expired at the snapshot time and is dropped; key a survives with value
preserved, timestamps (both below 2^53) unchanged by the rounding, and
access count reset to 1. -/
theorem claim_C7_restore_snapshot_amended_witness :
    (alKeys ({ items := [("a", { Value := "A", Expiration := 0, LastAccess := 1 }),
                         ("b", { Value := "B", Expiration := 3, LastAccess := 1 })],
               evictionType := "lru", maxItems := 10,
               accessCount := [("a", 7)] } : Cache String).items).Nodup ∧
    (loadFromDisk (newCache String "lru" 10)
        (snapshotData { items := [("a", { Value := "A", Expiration := 0, LastAccess := 1 }),
                                  ("b", { Value := "B", Expiration := 3, LastAccess := 1 })],
                        evictionType := "lru", maxItems := 10,
                        accessCount := [("a", 7)] } 5) 6).items =
      ((({ items := [("a", { Value := "A", Expiration := 0, LastAccess := 1 }),
                     ("b", { Value := "B", Expiration := 3, LastAccess := 1 })],
           evictionType := "lru", maxItems := 10,
           accessCount := [("a", 7)] } : Cache String)).items.filter
        (fun p => itemLiveF64 p.2 6 && itemLive p.2 5)).map (fun p => (p.1, decodeItem p.2)) :=
  ⟨by decide,
   (claim_C7_restore_snapshot_amended _ 5 6 "lru" 10 (by decide)).1⟩


/-! ### Claim C10: Set on a full store with an existing key still evicts -/

theorem Cache.evict_items {α : Type} (c : Cache α) (now : Int) :
    (c.evict now).items = alErase (c.evictedKey now) c.items ∧
    (c.evict now).accessCount = alErase (c.evictedKey now) c.accessCount := by
  by_cases h : c.evictionType = "lru" <;>
    simp [Cache.evict, Cache.evictedKey, Cache.evictLRU, Cache.evictLFU, h]

/-- C10: when set(k, v, ttl) hits a store whose item count equals the
capacity and k is already resident, the eviction pass still runs first:
the policy victim (when it is a key other than k and actually resident)
is deleted, and the subsequent overwrite of k leaves the store strictly
below capacity. -/
theorem claim_C10_full_overwrite_still_evicts {α : Type} (c : Cache α) (k : String) (v : α)
    (ttl now : Int)
    (hnd : (alKeys c.items).Nodup)
    (hk : k ∈ alKeys c.items)
    (hcap : c.items.length = c.maxItems)
    (hvick : c.evictedKey now ∈ alKeys c.items)
    (hne : c.evictedKey now ≠ k) :
    (c.Set k v ttl now).items =
      alInsert k { Value := v, Expiration := now + ttl, LastAccess := now }
        (alErase (c.evictedKey now) c.items) ∧
    alLookup (c.Set k v ttl now).items (c.evictedKey now) = none ∧
    (c.Set k v ttl now).items.length = c.maxItems - 1 ∧
    c.maxItems - 1 < c.maxItems := by
  have hge : c.items.length ≥ c.maxItems := le_of_eq hcap.symm
  have hset : (c.Set k v ttl now).items =
      alInsert k { Value := v, Expiration := now + ttl, LastAccess := now }
        (alErase (c.evictedKey now) c.items) := by
    simp only [Cache.Set, if_pos hge, (Cache.evict_items c now).1]
  have hkrem : k ∈ alKeys (alErase (c.evictedKey now) c.items) :=
    mem_alKeys_alErase c.items hk (fun hh => hne hh.symm)
  have hpos : 1 ≤ c.maxItems := by
    have h0 : c.items ≠ [] := by
      intro hh
      rw [hh] at hvick
      simp [alKeys] at hvick
    have h1 : 0 < c.items.length := List.length_pos.mpr h0
    omega
  refine ⟨hset, ?_, ?_, ?_⟩
  · rw [hset, alLookup_alInsert_ne _ _ (fun hh => hne hh.symm), alLookup_alErase_self]
  · rw [hset, alInsert_length_of_mem _ hkrem, alErase_length_of_mem hnd hvick, hcap]
  · omega

/-- Concrete LRU store at capacity 2 for the C10 witness: a is older than
b, so a is the LRU victim. -/
def exStoreC10 : Cache String :=
  { items := [("a", { Value := "A", Expiration := 0, LastAccess := 1 }),
              ("b", { Value := "B", Expiration := 0, LastAccess := 2 })],
    evictionType := "lru", maxItems := 2, accessCount := [] }

/-- Witness for C10: overwriting b in the full store evicts a, leaving
the store one below capacity. -/
theorem claim_C10_full_overwrite_still_evicts_witness :
    (alKeys exStoreC10.items).Nodup ∧ "b" ∈ alKeys exStoreC10.items ∧
    (exStoreC10.Set "b" "B2" 0 9).items.length = 2 - 1 :=
  ⟨by decide, by decide,
   (claim_C10_full_overwrite_still_evicts exStoreC10 "b" "B2" 0 9 (by decide) (by decide)
      (by decide) (by decide) (by decide)).2.2.1⟩

/-! ### Hash Ring (internal/cluster/hash.go) -/

/-- Virtual-node string: Go `node + string(rune(i))`. -/
def virtualKey (node : String) (i : Nat) : String :=
  node ++ String.mk [Char.ofNat i]

/-- ConsistentHash state: virtual-node count, sorted hash ring, hash to
node map, and the set of member nodes.  The md5-based 32-bit hash
function is passed to the operations as a parameter `hf`. -/
structure ConsistentHash where
  replicas : Nat
  hashRing : List Nat
  nodeMap : List (Nat × String)
  nodes : List String
deriving DecidableEq

/-- NewConsistentHash. -/
def newConsistentHash (replicas : Nat) : ConsistentHash :=
  { replicas := replicas, hashRing := [], nodeMap := [], nodes := [] }

/-- Hashes of the virtual nodes ConsistentHash.Add derives for a node. -/
def newNodeHashes (hf : String → Nat) (node : String) (replicas : Nat) : List Nat :=
  (List.range replicas).map (fun i => hf (virtualKey node i))

/-- ConsistentHash.Add: no-op on a present node, otherwise record the
node, append its virtual hashes to the ring, point each hash at the node,
and re-sort the ring.  Go sort.Slice uses a strict less on uint32: on
equal values the sorted result is the same list whichever comparison
sort runs, so insertionSort models it exactly. -/
def ConsistentHash.Add (hf : String → Nat) (ch : ConsistentHash) (node : String) :
    ConsistentHash :=
  if node ∈ ch.nodes then ch
  else
    let nh := newNodeHashes hf node ch.replicas
    { ch with
      nodes := ch.nodes ++ [node],
      hashRing := (ch.hashRing ++ nh).insertionSort (· ≤ ·),
      nodeMap := nh.foldl (fun m h => alInsert h node m) ch.nodeMap }

/-- ConsistentHash.Remove: no-op on an absent node, otherwise drop the
node and walk the ring once, keeping entries whose mapped node differs
from the removed one (a missing map key reads as "") and deleting the
map binding of the others, in ring order. -/
def ConsistentHash.Remove (ch : ConsistentHash) (node : String) : ConsistentHash :=
  if node ∈ ch.nodes then
    let res := ch.hashRing.foldl
      (fun (acc : List Nat × List (Nat × String)) h =>
        if (alLookup acc.2 h).getD "" ≠ node then (acc.1 ++ [h], acc.2)
        else (acc.1, alErase h acc.2))
      ([], ch.nodeMap)
    { ch with
      nodes := ch.nodes.filter (fun n => decide (n ≠ node)),
      hashRing := res.1,
      nodeMap := res.2 }
  else ch

/-- Binary search loop of Go sort.Search: narrow [i, j) until empty,
probing the midpoint.  The fuel argument bounds the iteration count;
`j - i` shrinks every step, so fuel `n` suffices for the initial call. -/
def sortSearchAux (f : Nat → Bool) : Nat → Nat → Nat → Nat
  | 0, i, _ => i
  | fuel + 1, i, j =>
    if i < j then
      let h := (i + j) / 2
      if f h then sortSearchAux f fuel i h else sortSearchAux f fuel (h + 1) j
    else i

/-- Go sort.Search(n, f). -/
def sortSearch (n : Nat) (f : Nat → Bool) : Nat :=
  sortSearchAux f n 0 n

/-- ConsistentHash.GetNodeForHash: binary search for the first ring entry
at or after the hash, wrapping to index 0 past the end, then map it to
its node.  On an empty ring the Go code would panic indexing hashRing[0];
the embedding reads the out-of-range index as 0 and the missing map key
as "" (no caller reaches this case in the verified statements). -/
def ConsistentHash.GetNodeForHash (ch : ConsistentHash) (hash : Nat) : String :=
  let idx := sortSearch ch.hashRing.length (fun i => decide (ch.hashRing.getD i 0 ≥ hash))
  let idx2 := if idx = ch.hashRing.length then 0 else idx
  (alLookup ch.nodeMap (ch.hashRing.getD idx2 0)).getD ""

/-- ConsistentHash.Get: empty-ring check, then the same binary search on
the hash of the key (the Go bodies of Get and GetNodeForHash are
identical after the check). -/
def ConsistentHash.Get (hf : String → Nat) (ch : ConsistentHash) (key : String) : String :=
  if ch.hashRing.length = 0 then ""
  else ch.GetNodeForHash (hf key)

theorem sortSearchAux_correct (f : Nat → Bool) (n : Nat)
    (hmono : ∀ a b, a ≤ b → b < n → f a = true → f b = true) :
    ∀ fuel i j, i ≤ j → j ≤ n → j - i ≤ fuel →
      (∀ k, k < i → f k = false) → (∀ k, j ≤ k → k < n → f k = true) →
      i ≤ sortSearchAux f fuel i j ∧ sortSearchAux f fuel i j ≤ j ∧
      (∀ k, k < sortSearchAux f fuel i j → f k = false) ∧
      (∀ k, sortSearchAux f fuel i j ≤ k → k < n → f k = true) := by
  intro fuel
  induction fuel with
  | zero =>
    intro i j hij hjn hfuel hlow hhigh
    have : i = j := by omega
    subst this
    exact ⟨le_refl i, le_refl i, hlow, fun k hk hkn => hhigh k hk hkn⟩
  | succ fuel ih =>
    intro i j hij hjn hfuel hlow hhigh
    by_cases hlt : i < j
    · simp only [sortSearchAux, if_pos hlt]
      by_cases hf : f ((i + j) / 2) = true
      · simp only [hf, if_pos]
        have h1 : i ≤ (i + j) / 2 := by omega
        have h2 : (i + j) / 2 ≤ j := by omega
        have h3 : (i + j) / 2 - i ≤ fuel := by omega
        have hhigh2 : ∀ k, (i + j) / 2 ≤ k → k < n → f k = true := by
          intro k hk hkn
          exact hmono _ _ hk hkn hf
        have := ih i ((i + j) / 2) h1 (le_trans h2 hjn) h3 hlow hhigh2
        exact ⟨this.1, le_trans this.2.1 h2, this.2.2.1, this.2.2.2⟩
      · simp only [hf, if_neg, Bool.false_eq_true, not_false_iff]
        have hmid : (i + j) / 2 < j := by omega
        have h1 : (i + j) / 2 + 1 ≤ j := by omega
        have h3 : j - ((i + j) / 2 + 1) ≤ fuel := by omega
        have hlow2 : ∀ k, k < (i + j) / 2 + 1 → f k = false := by
          intro k hk
          by_cases hki : k < i
          · exact hlow k hki
          · have hk2 : k ≤ (i + j) / 2 := by omega
            cases hfk : f k with
            | false => rfl
            | true =>
              have : f ((i + j) / 2) = true :=
                hmono k _ hk2 (by omega) hfk
              rw [this] at hf
              exact absurd rfl hf
        have := ih ((i + j) / 2 + 1) j h1 hjn h3 hlow2 hhigh
        exact ⟨by omega, this.2.1, this.2.2.1, this.2.2.2⟩
    · simp only [sortSearchAux, if_neg hlt]
      have : i = j := by omega
      subst this
      exact ⟨le_refl i, le_refl i, hlow, fun k hk hkn => hhigh k hk hkn⟩

theorem sortSearch_correct (f : Nat → Bool) (n : Nat)
    (hmono : ∀ a b, a ≤ b → b < n → f a = true → f b = true) :
    sortSearch n f ≤ n ∧ (∀ k, k < sortSearch n f → f k = false) ∧
    (∀ k, sortSearch n f ≤ k → k < n → f k = true) := by
  have := sortSearchAux_correct f n hmono n 0 n (Nat.zero_le n) (le_refl n)
    (by omega) (fun k hk => absurd hk (Nat.not_lt_zero k)) (fun k hk hkn => absurd hkn (by omega))
  exact ⟨this.2.1, this.2.2.1, this.2.2.2⟩

/-- Specification-side successor: the first ring entry at or after the
hash, wrapping to the first entry when no such entry exists. -/
def specFirstAtOrAfter (ring : List Nat) (hash : Nat) : Nat :=
  (ring.find? (fun e => decide (hash ≤ e))).getD (ring.headD 0)

theorem find?_of_first_index (p : Nat → Bool) :
    ∀ (l : List Nat) (r : Nat), r < l.length → (∀ k, k < r → p (l.getD k 0) = false) →
      p (l.getD r 0) = true → l.find? p = some (l.getD r 0) := by
  intro l
  induction l with
  | nil => intro r hr; simp at hr
  | cons a t ih =>
    intro r hr hlow hp
    cases r with
    | zero =>
      have hpa : p a = true := by simpa using hp
      simp [List.find?, hpa]
    | succ r0 =>
      have ha : p a = false := by
        have := hlow 0 (Nat.succ_pos r0)
        simpa [List.getD] using this
      have ht := ih r0 (by simpa using hr)
        (fun k hk => by simpa [List.getD] using hlow (k + 1) (by omega))
        (by simpa [List.getD] using hp)
      simp [List.find?, ha]
      simpa [List.getD] using ht

theorem getD_zero_eq_headD (l : List Nat) (h : l ≠ []) : l.getD 0 0 = l.headD 0 := by
  cases l with
  | nil => exact absurd rfl h
  | cons a t => rfl

theorem Sorted_getD_mono {l : List Nat} (hs : l.Sorted (· ≤ ·)) {a b : Nat}
    (hab : a ≤ b) (hb : b < l.length) : l.getD a 0 ≤ l.getD b 0 := by
  have ha : a < l.length := lt_of_le_of_lt hab hb
  rw [List.getD_eq_getElem l 0 ha, List.getD_eq_getElem l 0 hb]
  exact hs.rel_get_of_le (by exact hab)

/-- Characterization of GetNodeForHash on a sorted non-empty ring: it
returns the node mapped from the first ring entry at or after the hash
(wrapping to the first entry). -/
theorem ConsistentHash.GetNodeForHash_spec (ch : ConsistentHash) (hash : Nat)
    (hs : ch.hashRing.Sorted (· ≤ ·)) (hne : ch.hashRing ≠ []) :
    ch.GetNodeForHash hash = (alLookup ch.nodeMap (specFirstAtOrAfter ch.hashRing hash)).getD "" := by
  have hmono : ∀ a b, a ≤ b → b < ch.hashRing.length →
      (fun i => decide (ch.hashRing.getD i 0 ≥ hash)) a = true →
      (fun i => decide (ch.hashRing.getD i 0 ≥ hash)) b = true := by
    intro a b hab hb ha
    simp only [decide_eq_true_eq, ge_iff_le] at ha ⊢
    exact le_trans ha (Sorted_getD_mono hs hab hb)
  have hsc := sortSearch_correct _ ch.hashRing.length hmono
  set r := sortSearch ch.hashRing.length (fun i => decide (ch.hashRing.getD i 0 ≥ hash)) with hrdef
  by_cases hr : r < ch.hashRing.length
  · have hfind : ch.hashRing.find? (fun e => decide (hash ≤ e)) =
        some (ch.hashRing.getD r 0) := by
      apply find?_of_first_index _ ch.hashRing r hr
      · intro k hk
        have := hsc.2.1 k hk
        simpa [ge_iff_le] using this
      · have := hsc.2.2 r (le_refl r) hr
        simpa [ge_iff_le] using this
    have hrne : r ≠ ch.hashRing.length := Nat.ne_of_lt hr
    simp only [ConsistentHash.GetNodeForHash, specFirstAtOrAfter, ← hrdef, if_neg hrne, hfind,
      Option.getD_some]
  · have hreq : r = ch.hashRing.length := by omega
    have hfind : ch.hashRing.find? (fun e => decide (hash ≤ e)) = none := by
      apply List.find?_eq_none.mpr
      intro x hx
      rcases List.mem_iff_getElem.mp hx with ⟨n, hn, hget⟩
      have := hsc.2.1 n (by omega)
      rw [List.getD_eq_getElem ch.hashRing 0 hn, hget] at this
      simpa [ge_iff_le] using this
    have hhead : ch.hashRing.getD 0 0 = ch.hashRing.headD 0 :=
      getD_zero_eq_headD ch.hashRing hne
    simp only [ConsistentHash.GetNodeForHash, specFirstAtOrAfter, ← hrdef, if_pos hreq, hfind,
      Option.getD_none, hhead]

/-! ### Lemmas for Add and Remove -/

theorem alLookup_mem {κ β : Type} [DecidableEq κ] {m : List (κ × β)} {k : κ} {v : β}
    (h : alLookup m k = some v) : (k, v) ∈ m := by
  induction m with
  | nil => simp [alLookup] at h
  | cons p rest ih =>
    by_cases hp : p.1 = k
    · simp only [alLookup, if_pos hp] at h
      rcases p with ⟨a, b⟩
      cases h
      cases hp
      exact List.mem_cons_self _ _
    · simp only [alLookup, if_neg hp] at h
      exact List.mem_cons.mpr (Or.inr (ih h))

theorem alLookup_isSome_of_mem_keys {κ β : Type} [DecidableEq κ] {m : List (κ × β)} {k : κ}
    (h : k ∈ alKeys m) : ∃ v, alLookup m k = some v := by
  induction m with
  | nil => simp [alKeys] at h
  | cons p rest ih =>
    by_cases hp : p.1 = k
    · exact ⟨p.2, by simp [alLookup, hp]⟩
    · have h2 : k ∈ alKeys rest := by
        rcases List.mem_cons.mp h with h1 | h1
        · exact absurd h1.symm hp
        · exact h1
      rcases ih h2 with ⟨v, hv⟩
      exact ⟨v, by simp [alLookup, hp, hv]⟩

theorem alLookup_eq_none_of_not_mem {κ β : Type} [DecidableEq κ] {m : List (κ × β)} {k : κ}
    (h : k ∉ alKeys m) : alLookup m k = none := by
  induction m with
  | nil => rfl
  | cons p rest ih =>
    have hp : ¬p.1 = k := fun hh => h (by rw [alKeys_cons]; exact List.mem_cons.mpr (Or.inl hh.symm))
    have h2 : k ∉ alKeys rest := fun hh => h (by rw [alKeys_cons]; exact List.mem_cons.mpr (Or.inr hh))
    simp [alLookup, hp, ih h2]

theorem alLookup_append_left {κ β : Type} [DecidableEq κ] {m1 : List (κ × β)}
    (m2 : List (κ × β)) {k : κ} {v : β} (h : alLookup m1 k = some v) :
    alLookup (m1 ++ m2) k = some v := by
  induction m1 with
  | nil => simp [alLookup] at h
  | cons p rest ih =>
    by_cases hp : p.1 = k
    · simp only [alLookup, if_pos hp] at h
      simp [alLookup, hp, h]
    · simp only [alLookup, if_neg hp] at h
      simpa [alLookup, hp] using ih h

theorem alLookup_append_right {κ β : Type} [DecidableEq κ] {m1 : List (κ × β)}
    (m2 : List (κ × β)) {k : κ} (h : k ∉ alKeys m1) :
    alLookup (m1 ++ m2) k = alLookup m2 k := by
  induction m1 with
  | nil => rfl
  | cons p rest ih =>
    have hp : ¬p.1 = k := fun hh => h (by rw [alKeys_cons]; exact List.mem_cons.mpr (Or.inl hh.symm))
    have h2 : k ∉ alKeys rest := fun hh => h (by rw [alKeys_cons]; exact List.mem_cons.mpr (Or.inr hh))
    simpa [alLookup, hp] using ih h2

theorem alLookup_map_const {κ β : Type} [DecidableEq κ] (hs : List κ) (v : β) (k : κ) :
    alLookup (hs.map (fun h => (h, v))) k = if k ∈ hs then some v else none := by
  induction hs with
  | nil => simp [alLookup]
  | cons a rest ih =>
    by_cases ha : a = k
    · simp [alLookup, ha]
    · have : ¬k = a := fun hh => ha hh.symm
      simp [alLookup, ha, ih, this]

theorem foldl_alInsert_fresh {κ β : Type} [DecidableEq κ] (v : β) :
    ∀ (hs : List κ) (m : List (κ × β)), hs.Nodup → (∀ h ∈ hs, h ∉ alKeys m) →
      hs.foldl (fun acc h => alInsert h v acc) m = m ++ hs.map (fun h => (h, v)) := by
  intro hs
  induction hs with
  | nil => intro m _ _; simp
  | cons a rest ih =>
    intro m hnd hfresh
    have ha : a ∉ alKeys m := hfresh a (List.mem_cons_self _ _)
    have step : (a :: rest).foldl (fun acc h => alInsert h v acc) m =
        rest.foldl (fun acc h => alInsert h v acc) (alInsert a v m) := rfl
    rw [step, alInsert_of_not_mem _ ha]
    have hfresh2 : ∀ h ∈ rest, h ∉ alKeys (m ++ [(a, v)]) := by
      intro h hh hmem
      have hna : h ≠ a := fun hha => (List.nodup_cons.mp hnd).1 (hha ▸ hh)
      have : alKeys (m ++ [(a, v)]) = alKeys m ++ [a] := by simp [alKeys]
      rw [this] at hmem
      rcases List.mem_append.mp hmem with h1 | h1
      · exact hfresh h (List.mem_cons.mpr (Or.inr hh)) h1
      · exact hna (by simpa using h1)
    rw [ih (m ++ [(a, v)]) (List.nodup_cons.mp hnd).2 hfresh2]
    simp

/-- Sequential map deletions, as performed by the else branch of the
Remove loop. -/
def eraseKeys {κ β : Type} [DecidableEq κ] (ks : List κ) (m : List (κ × β)) : List (κ × β) :=
  ks.foldl (fun acc k => alErase k acc) m

theorem eraseKeys_eq_filter {κ β : Type} [DecidableEq κ] :
    ∀ (ks : List κ) (m : List (κ × β)),
      eraseKeys ks m = m.filter (fun p => decide (p.1 ∉ ks)) := by
  intro ks
  induction ks with
  | nil => intro m; simp [eraseKeys]
  | cons a rest ih =>
    intro m
    have step : eraseKeys (a :: rest) m = eraseKeys rest (alErase a m) := rfl
    rw [step, ih (alErase a m)]
    simp only [alErase, List.filter_filter]
    apply List.filter_congr
    intro p _
    by_cases h1 : p.1 = a <;> by_cases h2 : p.1 ∈ rest <;> simp [h1, h2]

/-- Characterization of the Remove walk: the kept ring entries are those
whose binding in the starting map is not the removed node, and the final
map is the starting map with the bindings of the dropped entries deleted.
Requires the walked ring to have no duplicate hashes (so a deletion never
changes the test of a later entry). -/
theorem removeFold_spec (node : String) :
    ∀ (l : List Nat) (m : List (Nat × String)) (acc : List Nat), l.Nodup →
      (l.foldl
        (fun (acc2 : List Nat × List (Nat × String)) h =>
          if (alLookup acc2.2 h).getD "" ≠ node then (acc2.1 ++ [h], acc2.2)
          else (acc2.1, alErase h acc2.2))
        (acc, m)).1 =
        acc ++ l.filter (fun h => decide ((alLookup m h).getD "" ≠ node)) ∧
      (l.foldl
        (fun (acc2 : List Nat × List (Nat × String)) h =>
          if (alLookup acc2.2 h).getD "" ≠ node then (acc2.1 ++ [h], acc2.2)
          else (acc2.1, alErase h acc2.2))
        (acc, m)).2 =
        eraseKeys (l.filter (fun h => decide ((alLookup m h).getD "" = node))) m := by
  intro l
  induction l with
  | nil => intro m acc _; simp [eraseKeys]
  | cons h0 rest ih =>
    intro m acc hnd
    have hout : h0 ∉ rest := (List.nodup_cons.mp hnd).1
    have hndr : rest.Nodup := (List.nodup_cons.mp hnd).2
    by_cases hc : (alLookup m h0).getD "" ≠ node
    · have step : ((h0 :: rest).foldl
          (fun (acc2 : List Nat × List (Nat × String)) h =>
            if (alLookup acc2.2 h).getD "" ≠ node then (acc2.1 ++ [h], acc2.2)
            else (acc2.1, alErase h acc2.2))
          (acc, m)) =
          (rest.foldl
            (fun (acc2 : List Nat × List (Nat × String)) h =>
              if (alLookup acc2.2 h).getD "" ≠ node then (acc2.1 ++ [h], acc2.2)
              else (acc2.1, alErase h acc2.2))
            (acc ++ [h0], m)) := by
        simp [hc]
      rw [step]
      have hrec := ih m (acc ++ [h0]) hndr
      refine ⟨?_, ?_⟩
      · rw [hrec.1]
        simp [List.filter_cons, hc]
      · rw [hrec.2]
        have : (alLookup m h0).getD "" = node ↔ False := by simp [hc]
        simp [List.filter_cons, this]
    · have hceq : (alLookup m h0).getD "" = node := by
        by_contra hcc
        exact hc hcc
      have step : ((h0 :: rest).foldl
          (fun (acc2 : List Nat × List (Nat × String)) h =>
            if (alLookup acc2.2 h).getD "" ≠ node then (acc2.1 ++ [h], acc2.2)
            else (acc2.1, alErase h acc2.2))
          (acc, m)) =
          (rest.foldl
            (fun (acc2 : List Nat × List (Nat × String)) h =>
              if (alLookup acc2.2 h).getD "" ≠ node then (acc2.1 ++ [h], acc2.2)
              else (acc2.1, alErase h acc2.2))
            (acc, alErase h0 m)) := by
        simp [hceq]
      rw [step]
      have hrec := ih (alErase h0 m) acc hndr
      have hlkagree : ∀ h ∈ rest,
          alLookup (alErase h0 m) h = alLookup m h := by
        intro h hh
        exact alLookup_alErase_ne m (fun hhh => hout (hhh ▸ hh))
      refine ⟨?_, ?_⟩
      · rw [hrec.1]
        have : rest.filter (fun h => decide ((alLookup (alErase h0 m) h).getD "" ≠ node)) =
            rest.filter (fun h => decide ((alLookup m h).getD "" ≠ node)) := by
          apply List.filter_congr
          intro h hh
          rw [hlkagree h hh]
        rw [this]
        simp [List.filter_cons, hceq]
      · rw [hrec.2]
        have hfeq : rest.filter (fun h => decide ((alLookup (alErase h0 m) h).getD "" = node)) =
            rest.filter (fun h => decide ((alLookup m h).getD "" = node)) := by
          apply List.filter_congr
          intro h hh
          rw [hlkagree h hh]
        rw [hfeq]
        have : (h0 :: rest).filter (fun h => decide ((alLookup m h).getD "" = node)) =
            h0 :: rest.filter (fun h => decide ((alLookup m h).getD "" = node)) := by
          simp [List.filter_cons, hceq]
        rw [this]
        rfl

/-- Well-formedness invariant of a ring state: sorted duplicate-free
ring, duplicate-free map keys, ring entries and map keys coincide, and
every mapped node is a member node. -/
def CHWf (ch : ConsistentHash) : Prop :=
  ch.hashRing.Sorted (· ≤ ·) ∧
  ch.hashRing.Nodup ∧
  (alKeys ch.nodeMap).Nodup ∧
  (∀ h ∈ ch.hashRing, h ∈ alKeys ch.nodeMap) ∧
  (∀ h ∈ alKeys ch.nodeMap, h ∈ ch.hashRing) ∧
  (∀ p ∈ ch.nodeMap, p.2 ∈ ch.nodes)

instance (ch : ConsistentHash) : Decidable (CHWf ch) := by
  unfold CHWf
  infer_instance

/-- Freshness of the virtual hashes a node would contribute: pairwise
distinct and absent from the current ring (true of the md5 projection on
any realistic topology; the spec calls hash ties "impossible in
practice"). -/
def freshHashes (hf : String → Nat) (ch : ConsistentHash) (node : String) : Prop :=
  (newNodeHashes hf node ch.replicas).Nodup ∧
  ∀ h ∈ newNodeHashes hf node ch.replicas, h ∉ ch.hashRing

instance (hf : String → Nat) (ch : ConsistentHash) (node : String) :
    Decidable (freshHashes hf ch node) := by
  unfold freshHashes
  infer_instance

theorem ConsistentHash.ext2 (a b : ConsistentHash) (h1 : a.replicas = b.replicas)
    (h2 : a.hashRing = b.hashRing) (h3 : a.nodeMap = b.nodeMap) (h4 : a.nodes = b.nodes) :
    a = b := by
  cases a
  cases b
  simp_all

/-- C8: on a well-formed ring, adding a node whose virtual hashes are
fresh and then removing it restores the ring state exactly: same sorted
hash list, same hash-to-node association list, same node list. -/
theorem claim_C8_add_then_remove_id (hf : String → Nat) (ch : ConsistentHash) (x : String)
    (hwf : CHWf ch) (hx : x ∉ ch.nodes) (hfr : freshHashes hf ch x) :
    (ch.Add hf x).Remove x = ch := by
  obtain ⟨hsort, hndr, hndk, hsub1, hsub2, hval⟩ := hwf
  obtain ⟨hnhnd, hnhfresh⟩ := hfr
  have hmap1 : (newNodeHashes hf x ch.replicas).foldl (fun m h => alInsert h x m) ch.nodeMap =
      ch.nodeMap ++ (newNodeHashes hf x ch.replicas).map (fun h => (h, x)) :=
    foldl_alInsert_fresh x (newNodeHashes hf x ch.replicas) ch.nodeMap hnhnd
      (fun h hh hmem => hnhfresh h hh (hsub2 h hmem))
  have hadd : ch.Add hf x =
      { replicas := ch.replicas,
        hashRing := (ch.hashRing ++ newNodeHashes hf x ch.replicas).insertionSort (· ≤ ·),
        nodeMap := ch.nodeMap ++ (newNodeHashes hf x ch.replicas).map (fun h => (h, x)),
        nodes := ch.nodes ++ [x] } := by
    simp only [ConsistentHash.Add, if_neg hx]
    rw [hmap1]
  rw [hadd]
  have hx1 : x ∈ ch.nodes ++ [x] := by simp
  simp only [ConsistentHash.Remove, if_pos hx1]
  have hperm : ((ch.hashRing ++ newNodeHashes hf x ch.replicas).insertionSort (· ≤ ·)).Perm (ch.hashRing ++ newNodeHashes hf x ch.replicas) :=
    List.perm_insertionSort _ _
  have hndapp : (ch.hashRing ++ newNodeHashes hf x ch.replicas).Nodup :=
    List.nodup_append.mpr ⟨hndr, hnhnd, fun a ha hb => hnhfresh a hb ha⟩
  have hnd1 : ((ch.hashRing ++ newNodeHashes hf x ch.replicas).insertionSort (· ≤ ·)).Nodup := hperm.symm.nodup hndapp
  have hsorted1 : ((ch.hashRing ++ newNodeHashes hf x ch.replicas).insertionSort (· ≤ ·)).Sorted (· ≤ ·) := List.sorted_insertionSort _ _
  have hclass : ∀ h ∈ (ch.hashRing ++ newNodeHashes hf x ch.replicas).insertionSort (· ≤ ·),
      ((alLookup (ch.nodeMap ++ (newNodeHashes hf x ch.replicas).map (fun h2 => (h2, x))) h).getD ""
        ≠ x) ↔ h ∈ ch.hashRing := by
    intro h hh
    have hmem : h ∈ ch.hashRing ++ newNodeHashes hf x ch.replicas := hperm.mem_iff.mp hh
    rcases List.mem_append.mp hmem with h1 | h1
    · have hk : h ∈ alKeys ch.nodeMap := hsub1 h h1
      rcases alLookup_isSome_of_mem_keys hk with ⟨v, hv⟩
      have hlk : alLookup (ch.nodeMap ++ (newNodeHashes hf x ch.replicas).map (fun h2 => (h2, x)))
          h = some v := alLookup_append_left _ hv
      have hvnodes : v ∈ ch.nodes := hval (h, v) (alLookup_mem hv)
      have hvne : v ≠ x := fun hh2 => hx (hh2 ▸ hvnodes)
      simp [hlk, hvne, h1]
    · have hnr : h ∉ ch.hashRing := hnhfresh h h1
      have hnm : h ∉ alKeys ch.nodeMap := fun hk => hnr (hsub2 h hk)
      have hlk : alLookup (ch.nodeMap ++ (newNodeHashes hf x ch.replicas).map (fun h2 => (h2, x)))
          h = some x := by
        rw [alLookup_append_right _ hnm, alLookup_map_const]
        simp [h1]
      simp [hlk, hnr]
  have hfold := removeFold_spec x
    ((ch.hashRing ++ newNodeHashes hf x ch.replicas).insertionSort (· ≤ ·))
    (ch.nodeMap ++ (newNodeHashes hf x ch.replicas).map (fun h => (h, x))) [] hnd1
  have hring2 : ((ch.hashRing ++ newNodeHashes hf x ch.replicas).insertionSort (· ≤ ·)).filter
      (fun h => decide ((alLookup (ch.nodeMap ++
        (newNodeHashes hf x ch.replicas).map (fun h2 => (h2, x))) h).getD "" ≠ x)) =
      ch.hashRing := by
    have hcongr : ((ch.hashRing ++ newNodeHashes hf x ch.replicas).insertionSort (· ≤ ·)).filter
        (fun h => decide ((alLookup (ch.nodeMap ++
          (newNodeHashes hf x ch.replicas).map (fun h2 => (h2, x))) h).getD "" ≠ x)) =
        ((ch.hashRing ++ newNodeHashes hf x ch.replicas).insertionSort (· ≤ ·)).filter (fun h => decide (h ∈ ch.hashRing)) :=
      List.filter_congr (fun h hh => decide_eq_decide.mpr (hclass h hh))
    rw [hcongr]
    have hpermf : (((ch.hashRing ++ newNodeHashes hf x ch.replicas).insertionSort (· ≤ ·)).filter (fun h => decide (h ∈ ch.hashRing))).Perm
        ((ch.hashRing ++ newNodeHashes hf x ch.replicas).filter
          (fun h => decide (h ∈ ch.hashRing))) :=
      hperm.filter _
    have happf : (ch.hashRing ++ newNodeHashes hf x ch.replicas).filter
        (fun h => decide (h ∈ ch.hashRing)) = ch.hashRing := by
      rw [List.filter_append]
      have h1 : ch.hashRing.filter (fun h => decide (h ∈ ch.hashRing)) = ch.hashRing :=
        List.filter_eq_self.mpr (fun a ha => by simpa using ha)
      have h2 : (newNodeHashes hf x ch.replicas).filter (fun h => decide (h ∈ ch.hashRing)) =
          [] :=
        List.filter_eq_nil_iff.mpr (fun a ha => by simpa using hnhfresh a ha)
      rw [h1, h2, List.append_nil]
    rw [happf] at hpermf
    exact List.eq_of_perm_of_sorted hpermf (hsorted1.filter _) hsort
  have hmap2 : eraseKeys
      (((ch.hashRing ++ newNodeHashes hf x ch.replicas).insertionSort (· ≤ ·)).filter
        (fun h => decide ((alLookup (ch.nodeMap ++
          (newNodeHashes hf x ch.replicas).map (fun h2 => (h2, x))) h).getD "" = x)))
      (ch.nodeMap ++ (newNodeHashes hf x ch.replicas).map (fun h => (h, x))) =
      ch.nodeMap := by
    rw [eraseKeys_eq_filter]
    have hks : ∀ k, k ∈ ((ch.hashRing ++ newNodeHashes hf x ch.replicas).insertionSort (· ≤ ·)).filter
        (fun h => decide ((alLookup (ch.nodeMap ++
          (newNodeHashes hf x ch.replicas).map (fun h2 => (h2, x))) h).getD "" = x)) ↔
        k ∈ newNodeHashes hf x ch.replicas := by
      intro k
      constructor
      · intro hk
        have hk1 := List.mem_of_mem_filter hk
        have hk2 := List.of_mem_filter hk
        have hmem : k ∈ ch.hashRing ++ newNodeHashes hf x ch.replicas := hperm.mem_iff.mp hk1
        rcases List.mem_append.mp hmem with h1 | h1
        · exfalso
          have := (hclass k hk1).mpr h1
          simp only [decide_eq_true_eq] at hk2
          exact this hk2
        · exact h1
      · intro hk
        have hk1 : k ∈ (ch.hashRing ++ newNodeHashes hf x ch.replicas).insertionSort (· ≤ ·) :=
          hperm.mem_iff.mpr (List.mem_append.mpr (Or.inr hk))
        apply List.mem_filter.mpr
        refine ⟨hk1, ?_⟩
        have hnr : k ∉ ch.hashRing := hnhfresh k hk
        have : ¬((alLookup (ch.nodeMap ++
            (newNodeHashes hf x ch.replicas).map (fun h2 => (h2, x))) k).getD "" ≠ x) := by
          intro hcc
          exact hnr ((hclass k hk1).mp hcc)
        simp only [decide_eq_true_eq]
        by_contra hcc
        exact this hcc
    have hcongr2 : (ch.nodeMap ++ (newNodeHashes hf x ch.replicas).map
        (fun h => (h, x))).filter
        (fun p => decide (p.1 ∉ ((ch.hashRing ++ newNodeHashes hf x ch.replicas).insertionSort (· ≤ ·)).filter
          (fun h => decide ((alLookup (ch.nodeMap ++
            (newNodeHashes hf x ch.replicas).map (fun h2 => (h2, x))) h).getD "" = x)))) =
        (ch.nodeMap ++ (newNodeHashes hf x ch.replicas).map (fun h => (h, x))).filter
          (fun p => decide (p.1 ∉ newNodeHashes hf x ch.replicas)) :=
      List.filter_congr (fun p _ => decide_eq_decide.mpr (not_congr (hks p.1)))
    rw [hcongr2, List.filter_append]
    have h1 : ch.nodeMap.filter (fun p => decide (p.1 ∉ newNodeHashes hf x ch.replicas)) =
        ch.nodeMap := by
      apply List.filter_eq_self.mpr
      intro p hp
      have : p.1 ∈ ch.hashRing := hsub2 p.1 (List.mem_map_of_mem Prod.fst hp)
      simp only [decide_eq_true_eq]
      intro hcc
      exact hnhfresh p.1 hcc this
    have h2 : ((newNodeHashes hf x ch.replicas).map (fun h => (h, x))).filter
        (fun p => decide (p.1 ∉ newNodeHashes hf x ch.replicas)) = [] := by
      apply List.filter_eq_nil_iff.mpr
      intro p hp
      rcases List.mem_map.mp hp with ⟨h0, hh0, hph⟩
      simp only [decide_eq_true_eq, not_not]
      rw [← hph]
      exact hh0
    rw [h1, h2, List.append_nil]
  have hnodes2 : (ch.nodes ++ [x]).filter (fun n => decide (n ≠ x)) = ch.nodes := by
    rw [List.filter_append]
    have h1 : ch.nodes.filter (fun n => decide (n ≠ x)) = ch.nodes :=
      List.filter_eq_self.mpr (fun a ha => by
        simp only [decide_eq_true_eq]
        exact fun hh => hx (hh ▸ ha))
    have h2 : ([x] : List String).filter (fun n => decide (n ≠ x)) = [] := by simp
    rw [h1, h2, List.append_nil]
  apply ConsistentHash.ext2
  · rfl
  · show _ = ch.hashRing
    rw [hfold.1]
    simpa using hring2
  · show _ = ch.nodeMap
    rw [hfold.2]
    exact hmap2
  · exact hnodes2

/-- Concrete hash table for the C8 witness: two virtual nodes per node. -/
def exHf8 (s : String) : Nat :=
  (alLookup [(virtualKey "n0" 0, 3), (virtualKey "n0" 1, 7),
             (virtualKey "n1" 0, 5), (virtualKey "n1" 1, 9)] s).getD 0

/-- Concrete well-formed ring holding one node, built by Add itself. -/
def exCH8 : ConsistentHash := (newConsistentHash 2).Add exHf8 "n0"

/-- Witness for C8: add then remove of n1 on the concrete one-node ring
restores it exactly. -/
theorem claim_C8_add_then_remove_id_witness :
    (CHWf exCH8 ∧ "n1" ∉ exCH8.nodes ∧ freshHashes exHf8 exCH8 "n1") ∧
    (exCH8.Add exHf8 "n1").Remove "n1" = exCH8 :=
  ⟨⟨by decide, by decide, by decide⟩,
   claim_C8_add_then_remove_id exHf8 exCH8 "n1" (by decide) (by decide) (by decide)⟩

/-! ### Claim C9: ring invariant under Add and Remove -/

theorem alLookup_of_mem_nodup {κ β : Type} [DecidableEq κ] {m : List (κ × β)} {k : κ} {v : β}
    (hnd : (alKeys m).Nodup) (hm : (k, v) ∈ m) : alLookup m k = some v := by
  induction m with
  | nil => simp at hm
  | cons p rest ih =>
    rcases List.mem_cons.mp hm with h1 | h1
    · rw [← h1]
      simp [alLookup]
    · have hp : ¬p.1 = k := by
        intro hh
        have : k ∈ alKeys rest := List.mem_map_of_mem Prod.fst h1
        exact (List.nodup_cons.mp (alKeys_cons p rest ▸ hnd)).1 (hh ▸ this)
      have := ih (List.nodup_cons.mp (alKeys_cons p rest ▸ hnd)).2 h1
      simp [alLookup, hp, this]

theorem alKeys_append {κ β : Type} (m1 m2 : List (κ × β)) :
    alKeys (m1 ++ m2) = alKeys m1 ++ alKeys m2 := by
  simp [alKeys]

theorem CHWf_init (replicas : Nat) : CHWf (newConsistentHash replicas) := by
  refine ⟨?_, ?_, ?_, ?_, ?_, ?_⟩ <;> simp [newConsistentHash, alKeys]

theorem CHWf_add (hf : String → Nat) (ch : ConsistentHash) (node : String)
    (hwf : CHWf ch) (hfr : node ∉ ch.nodes → freshHashes hf ch node) :
    CHWf (ch.Add hf node) := by
  by_cases hn : node ∈ ch.nodes
  · simpa [ConsistentHash.Add, hn] using hwf
  · obtain ⟨hsort, hndr, hndk, hsub1, hsub2, hval⟩ := hwf
    obtain ⟨hnhnd, hnhfresh⟩ := hfr hn
    have hfreshkeys : ∀ h ∈ newNodeHashes hf node ch.replicas, h ∉ alKeys ch.nodeMap :=
      fun h hh hmem => hnhfresh h hh (hsub2 h hmem)
    have hmap1 : (newNodeHashes hf node ch.replicas).foldl (fun m h => alInsert h node m)
        ch.nodeMap = ch.nodeMap ++ (newNodeHashes hf node ch.replicas).map (fun h => (h, node)) :=
      foldl_alInsert_fresh node (newNodeHashes hf node ch.replicas) ch.nodeMap hnhnd hfreshkeys
    have hadd : ch.Add hf node =
        { replicas := ch.replicas,
          hashRing := (ch.hashRing ++ newNodeHashes hf node ch.replicas).insertionSort (· ≤ ·),
          nodeMap := ch.nodeMap ++ (newNodeHashes hf node ch.replicas).map (fun h => (h, node)),
          nodes := ch.nodes ++ [node] } := by
      simp only [ConsistentHash.Add, if_neg hn]
      rw [hmap1]
    rw [hadd]
    have hperm : ((ch.hashRing ++ newNodeHashes hf node ch.replicas).insertionSort
        (· ≤ ·)).Perm (ch.hashRing ++ newNodeHashes hf node ch.replicas) :=
      List.perm_insertionSort _ _
    have hkeys1 : alKeys (ch.nodeMap ++ (newNodeHashes hf node ch.replicas).map
        (fun h => (h, node))) = alKeys ch.nodeMap ++ newNodeHashes hf node ch.replicas := by
      rw [alKeys_append]
      congr 1
      rw [alKeys, List.map_map]
      have hid : (Prod.fst ∘ fun h : Nat => (h, node)) = id := rfl
      rw [hid, List.map_id]
    refine ⟨List.sorted_insertionSort _ _, ?_, ?_, ?_, ?_, ?_⟩
    · exact hperm.symm.nodup
        (List.nodup_append.mpr ⟨hndr, hnhnd, fun a ha hb => hnhfresh a hb ha⟩)
    · rw [hkeys1]
      exact List.nodup_append.mpr ⟨hndk, hnhnd, fun a ha hb => hfreshkeys a hb ha⟩
    · intro h hh
      rw [hkeys1]
      rcases List.mem_append.mp (hperm.mem_iff.mp hh) with h1 | h1
      · exact List.mem_append.mpr (Or.inl (hsub1 h h1))
      · exact List.mem_append.mpr (Or.inr h1)
    · intro h hh
      rw [hkeys1] at hh
      apply hperm.mem_iff.mpr
      rcases List.mem_append.mp hh with h1 | h1
      · exact List.mem_append.mpr (Or.inl (hsub2 h h1))
      · exact List.mem_append.mpr (Or.inr h1)
    · intro p hp
      rcases List.mem_append.mp hp with h1 | h1
      · exact List.mem_append.mpr (Or.inl (hval p h1))
      · rcases List.mem_map.mp h1 with ⟨h0, _, hph⟩
        apply List.mem_append.mpr
        right
        rw [← hph]
        simp

theorem CHWf_remove (ch : ConsistentHash) (node : String) (hwf : CHWf ch) :
    CHWf (ch.Remove node) := by
  by_cases hn : node ∈ ch.nodes
  · obtain ⟨hsort, hndr, hndk, hsub1, hsub2, hval⟩ := hwf
    have hfold := removeFold_spec node ch.hashRing ch.nodeMap [] hndr
    have hrem : ch.Remove node =
        { replicas := ch.replicas,
          hashRing := ch.hashRing.filter
            (fun h => decide ((alLookup ch.nodeMap h).getD "" ≠ node)),
          nodeMap := (ch.nodeMap).filter (fun p => decide (p.1 ∉ ch.hashRing.filter
            (fun h => decide ((alLookup ch.nodeMap h).getD "" = node)))),
          nodes := ch.nodes.filter (fun n => decide (n ≠ node)) } := by
      simp only [ConsistentHash.Remove, if_pos hn]
      apply ConsistentHash.ext2
      · rfl
      · show _ = _
        rw [hfold.1]
        simp
      · show _ = _
        rw [hfold.2, eraseKeys_eq_filter]
      · rfl
    rw [hrem]
    have hkmem : ∀ h, h ∈ ch.hashRing.filter
        (fun h2 => decide ((alLookup ch.nodeMap h2).getD "" = node)) ↔
        h ∈ ch.hashRing ∧ (alLookup ch.nodeMap h).getD "" = node := by
      intro h
      constructor
      · intro hh
        exact ⟨List.mem_of_mem_filter hh, by simpa using List.of_mem_filter hh⟩
      · intro hh
        exact List.mem_filter.mpr ⟨hh.1, by simpa using hh.2⟩
    refine ⟨hsort.filter _, hndr.filter _, ?_, ?_, ?_, ?_⟩
    · exact (List.Sublist.map Prod.fst (List.filter_sublist ch.nodeMap) : _).nodup hndk
    · intro h hh
      have h1 : h ∈ ch.hashRing := List.mem_of_mem_filter hh
      have h2 : (alLookup ch.nodeMap h).getD "" ≠ node := by
        simpa using List.of_mem_filter hh
      have hk : h ∈ alKeys ch.nodeMap := hsub1 h h1
      rcases alLookup_isSome_of_mem_keys hk with ⟨v, hv⟩
      have hent : (h, v) ∈ ch.nodeMap := alLookup_mem hv
      have hnotks : h ∉ ch.hashRing.filter
          (fun h2 => decide ((alLookup ch.nodeMap h2).getD "" = node)) := by
        intro hc
        exact h2 ((hkmem h).mp hc).2
      have : (h, v) ∈ (ch.nodeMap).filter (fun p => decide (p.1 ∉ ch.hashRing.filter
          (fun h2 => decide ((alLookup ch.nodeMap h2).getD "" = node)))) :=
        List.mem_filter.mpr ⟨hent, by simp only [decide_eq_true_eq]; exact hnotks⟩
      exact List.mem_map_of_mem Prod.fst this
    · intro h hh
      rcases List.mem_map.mp hh with ⟨p, hp, hph⟩
      have hent : p ∈ ch.nodeMap := List.mem_of_mem_filter hp
      have hnotks : p.1 ∉ ch.hashRing.filter
          (fun h2 => decide ((alLookup ch.nodeMap h2).getD "" = node)) := by
        have h9 := List.of_mem_filter hp
        simp only [decide_eq_true_eq] at h9
        exact h9
      have hk : p.1 ∈ alKeys ch.nodeMap := List.mem_map_of_mem Prod.fst hent
      have hring : p.1 ∈ ch.hashRing := hsub2 p.1 hk
      have hlk : alLookup ch.nodeMap p.1 = some p.2 := alLookup_of_mem_nodup hndk hent
      have hne : (alLookup ch.nodeMap p.1).getD "" ≠ node := by
        intro hc
        exact hnotks ((hkmem p.1).mpr ⟨hring, hc⟩)
      rw [← hph]
      exact List.mem_filter.mpr ⟨hring, by simpa using hne⟩
    · intro p hp
      have hent : p ∈ ch.nodeMap := List.mem_of_mem_filter hp
      have hnotks : p.1 ∉ ch.hashRing.filter
          (fun h2 => decide ((alLookup ch.nodeMap h2).getD "" = node)) := by
        have h9 := List.of_mem_filter hp
        simp only [decide_eq_true_eq] at h9
        exact h9
      have hvn : p.2 ∈ ch.nodes := hval p hent
      have hk : p.1 ∈ alKeys ch.nodeMap := List.mem_map_of_mem Prod.fst hent
      have hring : p.1 ∈ ch.hashRing := hsub2 p.1 hk
      have hlk : alLookup ch.nodeMap p.1 = some p.2 := alLookup_of_mem_nodup hndk hent
      have hvne : p.2 ≠ node := by
        intro hc
        apply hnotks
        exact (hkmem p.1).mpr ⟨hring, by simp [hlk, hc]⟩
      exact List.mem_filter.mpr ⟨hvn, by simpa using hvne⟩
  · simpa [ConsistentHash.Remove, hn] using hwf

/-- Reachable ring states: built from an empty ring by Add and Remove,
where every effective Add contributes fresh virtual hashes (the md5
no-collision assumption the spec makes). -/
inductive CHReach (hf : String → Nat) : ConsistentHash → Prop where
  | init (replicas : Nat) : CHReach hf (newConsistentHash replicas)
  | add {ch : ConsistentHash} (node : String) : CHReach hf ch →
      (node ∉ ch.nodes → freshHashes hf ch node) → CHReach hf (ch.Add hf node)
  | remove {ch : ConsistentHash} (node : String) : CHReach hf ch →
      CHReach hf (ch.Remove node)

theorem CHWf_reach {hf : String → Nat} {ch : ConsistentHash} (hr : CHReach hf ch) : CHWf ch := by
  induction hr with
  | init replicas => exact CHWf_init replicas
  | add node _ hfr ih => exact CHWf_add _ _ node ih hfr
  | remove node _ ih => exact CHWf_remove _ node ih

/-- C9: after any sequence of Add and Remove operations (with fresh
virtual hashes on each effective Add), the hashRing list is sorted
ascending and its elements are exactly the keys of nodeMap; on that
sorted ring the binary search of GetNodeForHash and Get returns the node
of the first ring entry at or after the probed hash, wrapping to the
first entry. -/
theorem claim_C9_ring_sorted_matches_map (hf : String → Nat) (ch : ConsistentHash)
    (hr : CHReach hf ch) :
    ch.hashRing.Sorted (· ≤ ·) ∧
    (∀ h, h ∈ ch.hashRing ↔ h ∈ alKeys ch.nodeMap) ∧
    (∀ hash, ch.hashRing ≠ [] →
      ch.GetNodeForHash hash =
        (alLookup ch.nodeMap (specFirstAtOrAfter ch.hashRing hash)).getD "") ∧
    (∀ key, ch.hashRing ≠ [] →
      ch.Get hf key =
        (alLookup ch.nodeMap (specFirstAtOrAfter ch.hashRing (hf key))).getD "") := by
  obtain ⟨hsort, _, _, hsub1, hsub2, _⟩ := CHWf_reach hr
  refine ⟨hsort, fun h => ⟨hsub1 h, hsub2 h⟩, ?_, ?_⟩
  · intro hash hne
    exact ch.GetNodeForHash_spec hash hsort hne
  · intro key hne
    have hlen : ¬ch.hashRing.length = 0 := by
      intro hc
      exact hne (List.length_eq_zero.mp hc)
    rw [ConsistentHash.Get, if_neg hlen]
    exact ch.GetNodeForHash_spec (hf key) hsort hne

/-- Witness for C9 on a concrete reachable state: add two nodes, remove
one, and check the invariant on the result. -/
theorem claim_C9_ring_sorted_matches_map_witness :
    ((((newConsistentHash 2).Add exHf8 "n0").Add exHf8 "n1").Remove "n0").hashRing.Sorted
      (· ≤ ·) ∧
    (∀ h, h ∈ ((((newConsistentHash 2).Add exHf8 "n0").Add exHf8 "n1").Remove "n0").hashRing ↔
      h ∈ alKeys ((((newConsistentHash 2).Add exHf8 "n0").Add exHf8 "n1").Remove
        "n0").nodeMap) ∧
    (∀ hash, ((((newConsistentHash 2).Add exHf8 "n0").Add exHf8 "n1").Remove
        "n0").hashRing ≠ [] →
      ((((newConsistentHash 2).Add exHf8 "n0").Add exHf8 "n1").Remove "n0").GetNodeForHash
          hash =
        (alLookup ((((newConsistentHash 2).Add exHf8 "n0").Add exHf8 "n1").Remove "n0").nodeMap
          (specFirstAtOrAfter
            ((((newConsistentHash 2).Add exHf8 "n0").Add exHf8 "n1").Remove "n0").hashRing
            hash)).getD "") ∧
    (∀ key, ((((newConsistentHash 2).Add exHf8 "n0").Add exHf8 "n1").Remove
        "n0").hashRing ≠ [] →
      ((((newConsistentHash 2).Add exHf8 "n0").Add exHf8 "n1").Remove "n0").Get exHf8 key =
        (alLookup ((((newConsistentHash 2).Add exHf8 "n0").Add exHf8 "n1").Remove "n0").nodeMap
          (specFirstAtOrAfter
            ((((newConsistentHash 2).Add exHf8 "n0").Add exHf8 "n1").Remove "n0").hashRing
            (exHf8 key))).getD "") :=
  claim_C9_ring_sorted_matches_map exHf8 _
    (CHReach.remove "n0"
      (CHReach.add "n1" (CHReach.add "n0" (CHReach.init 2) (by decide)) (by decide)))

/-! ### Membership (internal/cluster node.go) -/

/-- Node descriptor from internal/cluster. -/
structure Node where
  ID : String
  Address : String
  Status : String
  LastSeen : Int
deriving DecidableEq

/-- NodeManager state: descriptor map, owned ring, local descriptor, and
the health-check interval. -/
structure NodeManager where
  nodes : List (String × Node)
  hash : ConsistentHash
  localNode : Node
  nodeCheckTime : Int
deriving DecidableEq

/-- NewNodeManager: local node is registered immediately; the ring is
built with 10 virtual nodes per physical node. -/
def newNodeManager (hf : String → Nat) (localId localAddr : String) (checkTime now : Int) :
    NodeManager :=
  { nodes := [(localId, { ID := localId, Address := localAddr, Status := "up", LastSeen := now })],
    hash := (newConsistentHash 10).Add hf localId,
    localNode := { ID := localId, Address := localAddr, Status := "up", LastSeen := now },
    nodeCheckTime := checkTime }

/-- NodeManager.RegisterNode: refresh an existing descriptor, otherwise
insert a new one and add the node to the ring.  (The Go descriptor map
holds pointers; updating the local node through the map would alias
localNode, a case no verified statement exercises.) -/
def NodeManager.RegisterNode (hf : String → Nat) (nm : NodeManager) (id addr : String)
    (now : Int) : NodeManager :=
  match alLookup nm.nodes id with
  | some node =>
    let upd := { node with Address := addr, Status := "up", LastSeen := now }
    { nm with nodes := alInsert id upd nm.nodes }
  | none =>
    { nm with
      nodes := alInsert id { ID := id, Address := addr, Status := "up", LastSeen := now } nm.nodes,
      hash := nm.hash.Add hf id }

/-- NodeManager.GetNodeForKey: ring lookup then descriptor-map lookup
(Go returns nil for a missing descriptor, hence Option). -/
def NodeManager.GetNodeForKey (hf : String → Nat) (nm : NodeManager) (key : String) :
    Option Node :=
  alLookup nm.nodes (nm.hash.Get hf key)

/-- NodeManager.GetLocalNode. -/
def NodeManager.GetLocalNode (nm : NodeManager) : Node :=
  nm.localNode

/-- Inner loop of NodeManager.GetNodesForKey: walk ring positions
`(primaryPos + i) % numNodes` for `i = 1, ...` while `i < numNodes` and
fewer than `count` ids are collected, appending each id not yet present
(Go containsString).  The fuel argument mirrors the loop bound `i <
numNodes`; fuel `numNodes` is enough. -/
def gnfkLoop (ch : ConsistentHash) (numNodes primaryPos count : Nat) :
    Nat → Nat → Nat → List String → List String
  | 0, _, _, acc => acc
  | fuel + 1, i, added, acc =>
    if i < numNodes ∧ added < count then
      if ch.GetNodeForHash (ch.hashRing.getD ((primaryPos + i) % numNodes) 0) ∈ acc then
        gnfkLoop ch numNodes primaryPos count fuel (i + 1) added acc
      else
        gnfkLoop ch numNodes primaryPos count fuel (i + 1) (added + 1)
          (acc ++ [ch.GetNodeForHash (ch.hashRing.getD ((primaryPos + i) % numNodes) 0)])
    else acc

/-- NodeManager.GetNodesForKey: primary first; if more than one id is
wanted and more than one node is known, find the first ring position
owned by the primary (Go scans the ring and breaks at the first match,
leaving 0 if none matches) and continue clockwise from the next
position. -/
def NodeManager.GetNodesForKey (hf : String → Nat) (nm : NodeManager) (key : String)
    (count : Nat) : List String :=
  let primaryNodeId := nm.hash.Get hf key
  if count ≤ 1 ∨ nm.nodes.length ≤ 1 then [primaryNodeId]
  else
    let numNodes := nm.hash.hashRing.length
    let j := nm.hash.hashRing.findIdx (fun h => nm.hash.GetNodeForHash h == primaryNodeId)
    let primaryPos := if j = numNodes then 0 else j
    gnfkLoop nm.hash numNodes primaryPos count numNodes 1 1 [primaryNodeId]

/-! ### Replication Coordinator (internal/cache replication.go) -/

/-- ReplicationManager configuration: the additional-replica count and
the local node id passed at construction (main.go passes nodeId). -/
structure RepManager where
  replicaCount : Nat
  localNode : String
deriving DecidableEq

/-- Targets of ReplicationManager.ReplicateSet: the owners returned by
GetNodesForKey(key, replicaCount+1) minus the local node.  The Go code
spawns one asynchronous POST to `<node>/replicate/set` per listed target;
the embedding returns the target list. -/
def replicateSetTargets (hf : String → Nat) (rm : RepManager) (nm : NodeManager)
    (key : String) : List String :=
  (nm.GetNodesForKey hf key (rm.replicaCount + 1)).filter
    (fun node => decide (node ≠ rm.localNode))

/-! ### HTTP edge (internal/api server.go) -/

/-- Server state: cache plus the optional managers set by SetNodeManager
and SetReplicationManager (main.go sets only the replication manager). -/
structure Server (α : Type) where
  cache : Cache α
  nodeManager : Option NodeManager
  repManager : Option RepManager

/-- Parsed /set request: method and decoded body (key, value, ttl in
seconds); a body that fails to decode is none. -/
structure SetRequest (α : Type) where
  method : String
  body : Option (String × α × Int)

/-- Parsed /delete request. -/
structure DeleteRequest where
  method : String
  key : String

/-- Observable outcome of a handler: response status, cache state after
the call, forward destination if any, and the replication fan-out
issued. -/
structure HandlerOutcome (α : Type) where
  status : Nat
  cache : Cache α
  forwardedTo : Option String
  replicationTargets : List String

/-- Server.handleSet: method check, body decode, key check, forward when
a node manager is present and the key belongs to another node, otherwise
apply the local Set (ttl seconds scaled to a nanosecond duration) and
answer 201.  The handler never invokes the replication manager, so the
fan-out of every outcome is empty. -/
def handleSet {α : Type} (hf : String → Nat) (s : Server α) (r : SetRequest α) (now : Int) :
    HandlerOutcome α :=
  if r.method ≠ "POST" then ⟨405, s.cache, none, []⟩
  else match r.body with
  | none => ⟨400, s.cache, none, []⟩
  | some (key, value, ttl) =>
    if key = "" then ⟨400, s.cache, none, []⟩
    else
      let forward : Option Node :=
        match s.nodeManager with
        | some nm =>
          match NodeManager.GetNodeForKey hf nm key with
          | some node => if node.ID ≠ nm.localNode.ID then some node else none
          | none => none
        | none => none
      match forward with
      | some node => ⟨0, s.cache, some node.Address, []⟩
      | none => ⟨201, s.cache.Set key value (ttl * 1000000000) now, none, []⟩

/-- Server.handleDelete: method check, key check, local delete, 200.
The source consults neither the node manager nor the replication
manager on this path. -/
def handleDelete {α : Type} (s : Server α) (r : DeleteRequest) : HandlerOutcome α :=
  if r.method ≠ "DELETE" then ⟨405, s.cache, none, []⟩
  else if r.key = "" then ⟨400, s.cache, none, []⟩
  else ⟨200, s.cache.Delete r.key, none, []⟩

/-! ### Concrete three-node cluster used by C3, C5 and C6 -/

/-- Hash table realizing a topology in which the primary of key k has an
earlier ring position (hash 10) than the ring entry that owns k
(hash 30): P contributes 10, 30, 110..180; A contributes 20, 210..290;
B contributes 40, 310..390; k hashes to 25 and q to 35. -/
def exHfTable : List (String × Nat) :=
  [(virtualKey "P" 0, 10), (virtualKey "P" 1, 30), (virtualKey "P" 2, 110),
   (virtualKey "P" 3, 120), (virtualKey "P" 4, 130), (virtualKey "P" 5, 140),
   (virtualKey "P" 6, 150), (virtualKey "P" 7, 160), (virtualKey "P" 8, 170),
   (virtualKey "P" 9, 180),
   (virtualKey "A" 0, 20), (virtualKey "A" 1, 210), (virtualKey "A" 2, 220),
   (virtualKey "A" 3, 230), (virtualKey "A" 4, 240), (virtualKey "A" 5, 250),
   (virtualKey "A" 6, 260), (virtualKey "A" 7, 270), (virtualKey "A" 8, 280),
   (virtualKey "A" 9, 290),
   (virtualKey "B" 0, 40), (virtualKey "B" 1, 310), (virtualKey "B" 2, 320),
   (virtualKey "B" 3, 330), (virtualKey "B" 4, 340), (virtualKey "B" 5, 350),
   (virtualKey "B" 6, 360), (virtualKey "B" 7, 370), (virtualKey "B" 8, 380),
   (virtualKey "B" 9, 390),
   ("k", 25), ("q", 35)]

/-- Concrete hash function backed by the table. -/
def exHf (s : String) : Nat :=
  (alLookup exHfTable s).getD 0

/-- Concrete membership state: local node P, then A and B registered. -/
def exNm : NodeManager :=
  NodeManager.RegisterNode exHf
    (NodeManager.RegisterNode exHf (newNodeManager exHf "P" "http://p:8080" 5 100)
      "A" "http://a:8080" 101)
    "B" "http://b:8080" 102

/-- Fold that appends each id not already collected, as GetNodesForKey
does with containsString. -/
def addDistinct (acc : List String) (l : List String) : List String :=
  l.foldl (fun a x => if x ∈ a then a else a ++ [x]) acc

/-- Ring entries read through the node map, in ring order. -/
def ringNodeIds (ch : ConsistentHash) : List String :=
  ch.hashRing.map (fun h => (alLookup ch.nodeMap h).getD "")

/-- Owner list as claim C5 words it: start at the key's ring position
(the first entry at or after hash(key), wrapping), walk clockwise,
collect distinct node ids, return the first n. -/
def ownersSpecC5 (hf : String → Nat) (nm : NodeManager) (key : String) (n : Nat) :
    List String :=
  let ring := nm.hash.hashRing
  let j := ring.findIdx (fun e => decide (hf key ≤ e))
  let keyIdx := if j = ring.length then 0 else j
  (addDistinct [] ((ringNodeIds nm.hash).rotate keyIdx)).take n

/-- C5 counterexample: on the concrete reachable three-node cluster the
code walks clockwise from the primary's first ring entry (hash 10), not
from the key's position (hash 30), and produces the successor order
[P, A, B] where the claim's walk from the key's position yields
[P, B, A]. -/
theorem claim_C5_counterexample :
    NodeManager.GetNodesForKey exHf exNm "k" 3 = ["P", "A", "B"] ∧
    ownersSpecC5 exHf exNm "k" 3 = ["P", "B", "A"] ∧
    NodeManager.GetNodesForKey exHf exNm "k" 3 ≠ ownersSpecC5 exHf exNm "k" 3 := by
  decide

/-- Server wired like main.go for the C3 scenario: replication manager
present (replicaCount 2, local node P); node manager also wired so the
ownership path is exercised; P owns key k. -/
def exServer3 : Server String :=
  { cache := newCache String "lru" 1000, nodeManager := some exNm,
    repManager := some { replicaCount := 2, localNode := "P" } }

/-- C3: the accepted owner-local set answers 201 and stores the value,
but the handler issues no replication message at all, although the
replication coordinator, had it been invoked, would have targeted the
other owners A and B (GetNodesForKey(k, replicaCount+1) minus the local
node). -/
theorem claim_C3_owner_set_issues_no_replication :
    (handleSet exHf exServer3 { method := "POST", body := some ("k", "V", 60) } 1000).status =
      201 ∧
    (handleSet exHf exServer3 { method := "POST", body := some ("k", "V", 60) }
      1000).forwardedTo = none ∧
    alLookup (handleSet exHf exServer3 { method := "POST", body := some ("k", "V", 60) }
      1000).cache.items "k" =
      some { Value := "V", Expiration := 60000001000, LastAccess := 1000 } ∧
    (handleSet exHf exServer3 { method := "POST", body := some ("k", "V", 60) }
      1000).replicationTargets = [] ∧
    replicateSetTargets exHf { replicaCount := 2, localNode := "P" } exNm "k" = ["A", "B"] := by
  decide

/-- Server for the C6 scenario: local node P holds key q in its cache,
but q is owned by node B. -/
def exServer6 : Server String :=
  { cache := (newCache String "lru" 1000).Set "q" "V" 1000000000 1,
    nodeManager := some exNm,
    repManager := some { replicaCount := 2, localNode := "P" } }

/-- C6: a delete for a key owned by another node (B owns q, the local
node is P) is neither forwarded nor relayed: handleDelete never consults
the node manager, deletes q from the local store, and answers 200
success itself. -/
theorem claim_C6_delete_never_forwards :
    (NodeManager.GetNodeForKey exHf exNm "q").map Node.ID = some "B" ∧
    (NodeManager.GetLocalNode exNm).ID = "P" ∧
    (handleDelete exServer6 { method := "DELETE", key := "q" }).status = 200 ∧
    (handleDelete exServer6 { method := "DELETE", key := "q" }).forwardedTo = none ∧
    alLookup (handleDelete exServer6 { method := "DELETE", key := "q" }).cache.items "q" =
      none := by
  decide

/-! ### Lemmas for GetNodesForKey -/

theorem addDistinct_nil (acc : List String) : addDistinct acc [] = acc := rfl

theorem addDistinct_cons (acc : List String) (x : String) (l : List String) :
    addDistinct acc (x :: l) = addDistinct (if x ∈ acc then acc else acc ++ [x]) l := rfl

theorem addDistinct_append_exists :
    ∀ (l acc : List String), ∃ s, addDistinct acc l = acc ++ s := by
  intro l
  induction l with
  | nil => intro acc; exact ⟨[], by simp [addDistinct_nil]⟩
  | cons x t ih =>
    intro acc
    rw [addDistinct_cons]
    by_cases hx : x ∈ acc
    · simpa [hx] using ih acc
    · rcases ih (acc ++ [x]) with ⟨s, hs⟩
      exact ⟨[x] ++ s, by simp [hx, hs]⟩

theorem addDistinct_nodup :
    ∀ (l acc : List String), acc.Nodup → (addDistinct acc l).Nodup := by
  intro l
  induction l with
  | nil => intro acc h; simpa [addDistinct_nil] using h
  | cons x t ih =>
    intro acc h
    rw [addDistinct_cons]
    by_cases hx : x ∈ acc
    · simpa [hx] using ih acc h
    · have : (acc ++ [x]).Nodup := by
        simp [List.nodup_append, h, hx]
      simpa [hx] using ih (acc ++ [x]) this

theorem addDistinct_toFinset :
    ∀ (l acc : List String), (addDistinct acc l).toFinset = acc.toFinset ∪ l.toFinset := by
  intro l
  induction l with
  | nil => intro acc; simp [addDistinct_nil]
  | cons x t ih =>
    intro acc
    rw [addDistinct_cons]
    by_cases hx : x ∈ acc
    · rw [if_pos hx, ih acc]
      have : insert x acc.toFinset = acc.toFinset := by
        simp [Finset.insert_eq_self, hx]
      simp [List.toFinset_cons, ← Finset.insert_union, this]
    · rw [if_neg hx, ih (acc ++ [x])]
      simp only [List.toFinset_cons, List.toFinset_append]
      ext y
      simp
      tauto

theorem addDistinct_of_all_mem :
    ∀ (l acc : List String), (∀ x ∈ l, x ∈ acc) → addDistinct acc l = acc := by
  intro l
  induction l with
  | nil => intro acc _; rfl
  | cons x t ih =>
    intro acc h
    rw [addDistinct_cons, if_pos (h x (List.mem_cons_self x t))]
    exact ih acc (fun y hy => h y (List.mem_cons.mpr (Or.inr hy)))

theorem find?_ge_self_of_sorted :
    ∀ (l : List Nat), l.Sorted (· ≤ ·) → ∀ h ∈ l,
      l.find? (fun e => decide (h ≤ e)) = some h := by
  intro l
  induction l with
  | nil => intro _ h hh; simp at hh
  | cons a t ih =>
    intro hs h hh
    have hat : ∀ b ∈ t, a ≤ b := (List.sorted_cons.mp hs).1
    rcases List.mem_cons.mp hh with h1 | h1
    · subst h1
      simp [List.find?]
    · by_cases hha : h ≤ a
      · have hah : a ≤ h := hat h h1
        have : a = h := le_antisymm hah hha
        subst this
        simp [List.find?]
      · have step : (a :: t).find? (fun e => decide (h ≤ e)) =
            t.find? (fun e => decide (h ≤ e)) := by
          simp [List.find?, hha]
        rw [step]
        exact ih (List.sorted_cons.mp hs).2 h h1

theorem specFirstAtOrAfter_self (ring : List Nat) (hs : ring.Sorted (· ≤ ·)) (h : Nat)
    (hh : h ∈ ring) : specFirstAtOrAfter ring h = h := by
  rw [specFirstAtOrAfter, find?_ge_self_of_sorted ring hs h hh]
  rfl

theorem specFirstAtOrAfter_mem (ring : List Nat) (hash : Nat) (hne : ring ≠ []) :
    specFirstAtOrAfter ring hash ∈ ring := by
  rw [specFirstAtOrAfter]
  cases hfind : ring.find? (fun e => decide (hash ≤ e)) with
  | some e =>
    simpa using List.mem_of_find?_eq_some hfind
  | none =>
    have : ring.headD 0 ∈ ring := by
      cases ring with
      | nil => exact absurd rfl hne
      | cons a t => exact List.mem_cons_self a t
    simpa using this

theorem GetNodeForHash_ring_mem (ch : ConsistentHash) (hs : ch.hashRing.Sorted (· ≤ ·))
    (h : Nat) (hh : h ∈ ch.hashRing) :
    ch.GetNodeForHash h = (alLookup ch.nodeMap h).getD "" := by
  have hne : ch.hashRing ≠ [] := by
    intro hc
    rw [hc] at hh
    simp at hh
  rw [ch.GetNodeForHash_spec h hs hne, specFirstAtOrAfter_self ch.hashRing hs h hh]

theorem findIdx_congr {α : Type} (p q : α → Bool) :
    ∀ (l : List α), (∀ x ∈ l, p x = q x) → l.findIdx p = l.findIdx q := by
  intro l
  induction l with
  | nil => intro _; rfl
  | cons a t ih =>
    intro h
    rw [List.findIdx_cons, List.findIdx_cons, h a (List.mem_cons_self a t),
      ih (fun x hx => h x (List.mem_cons.mpr (Or.inr hx)))]

theorem findIdx_map_comp {α β : Type} (f : α → β) (p : β → Bool) :
    ∀ (l : List α), (l.map f).findIdx p = l.findIdx (fun x => p (f x)) := by
  intro l
  induction l with
  | nil => rfl
  | cons a t ih =>
    simp [List.findIdx_cons, ih]

theorem gnfkLoop_eq (ch : ConsistentHash) (numNodes primaryPos count : Nat) :
    ∀ (fuel i : Nat) (acc : List String), numNodes - i ≤ fuel → acc.length ≤ count →
      gnfkLoop ch numNodes primaryPos count fuel i acc.length acc =
        (addDistinct acc ((List.range' i (numNodes - i)).map
          (fun j => ch.GetNodeForHash
            (ch.hashRing.getD ((primaryPos + j) % numNodes) 0)))).take count := by
  intro fuel
  induction fuel with
  | zero =>
    intro i acc hfuel hlen
    have h0 : numNodes - i = 0 := by omega
    rw [gnfkLoop, h0]
    simp [List.range', addDistinct_nil, List.take_of_length_le hlen]
  | succ fuel ih =>
    intro i acc hfuel hlen
    by_cases hguard : i < numNodes ∧ acc.length < count
    · have hstep : numNodes - i = (numNodes - (i + 1)) + 1 := by omega
      rw [hstep, List.range'_succ]
      simp only [List.map_cons]
      rw [addDistinct_cons]
      by_cases hx : ch.GetNodeForHash (ch.hashRing.getD ((primaryPos + i) % numNodes) 0) ∈ acc
      · rw [gnfkLoop, if_pos hguard, if_pos hx, if_pos hx]
        exact ih (i + 1) acc (by omega) hlen
      · rw [gnfkLoop, if_pos hguard, if_neg hx, if_neg hx]
        have hlena : acc.length + 1 = (acc ++ [ch.GetNodeForHash
            (ch.hashRing.getD ((primaryPos + i) % numNodes) 0)]).length := by
          simp
        rw [hlena]
        exact ih (i + 1) _ (by omega) (by simp; omega)
    · rw [gnfkLoop, if_neg hguard]
      rcases Nat.lt_or_ge i numNodes with hlt | hge
      · have hcnt : acc.length = count := by omega
        rcases addDistinct_append_exists (((List.range' i (numNodes - i)).map
            (fun j => ch.GetNodeForHash
              (ch.hashRing.getD ((primaryPos + j) % numNodes) 0)))) acc with ⟨s, hs⟩
        rw [hs, List.take_append_eq_append_take]
        have h1 : List.take count acc = acc := List.take_of_length_le (le_of_eq hcnt)
        have h2 : count - acc.length = 0 := by omega
        rw [h1, h2]
        simp
      · have h0 : numNodes - i = 0 := by omega
        rw [h0]
        simp [List.range', addDistinct_nil, List.take_of_length_le hlen]

/-- Owner list as the code actually produces it, worded as a
specification: first the primary, then the distinct node ids read
clockwise starting after the primary's first ring entry (the entry at
the lowest ring index whose node id is the primary), truncated to n. -/
def ownersFromPrimaryFirst (hf : String → Nat) (nm : NodeManager) (key : String) (n : Nat) :
    List String :=
  let ids := ringNodeIds nm.hash
  let primary := nm.hash.Get hf key
  let pp := ids.findIdx (fun x => x == primary)
  (addDistinct [primary] ((ids.rotate (pp + 1)).dropLast)).take n

/-- Well-formedness of a membership state: well-formed non-empty ring,
duplicate-free descriptor keys, and the ring node ids are exactly the
registered node ids. -/
def NMWf (nm : NodeManager) : Prop :=
  CHWf nm.hash ∧
  nm.hash.hashRing ≠ [] ∧
  (alKeys nm.nodes).Nodup ∧
  (∀ x ∈ ringNodeIds nm.hash, x ∈ alKeys nm.nodes) ∧
  (∀ x ∈ alKeys nm.nodes, x ∈ ringNodeIds nm.hash)

instance (nm : NodeManager) : Decidable (NMWf nm) := by
  unfold NMWf
  infer_instance

/-- C5 as amended: owners_for(k, n) returns the primary first and then
the distinct node ids found clockwise from the primary's first ring
entry (not from the key's position), with no duplicates and with length
min(n, number of distinct node ids on the ring). -/
theorem claim_C5_owners_amended (hf : String → Nat) (nm : NodeManager) (key : String) (n : Nat)
    (hwf : NMWf nm) (hn : 1 ≤ n) :
    nm.GetNodesForKey hf key n = ownersFromPrimaryFirst hf nm key n ∧
    (nm.GetNodesForKey hf key n).head? = some (nm.hash.Get hf key) ∧
    (nm.GetNodesForKey hf key n).Nodup ∧
    (nm.GetNodesForKey hf key n).length = min n (ringNodeIds nm.hash).toFinset.card := by
  obtain ⟨hchwf, hne, hndk, hids1, hids2⟩ := hwf
  obtain ⟨hsort, hndr, hndmk, hsub1, hsub2, hval⟩ := hchwf
  have hlenids : (ringNodeIds nm.hash).length = nm.hash.hashRing.length := by
    simp [ringNodeIds]
  have hnnz : 0 < nm.hash.hashRing.length := List.length_pos.mpr hne
  have hlennz : ¬nm.hash.hashRing.length = 0 := by omega
  have hget : nm.hash.Get hf key =
      (alLookup nm.hash.nodeMap (specFirstAtOrAfter nm.hash.hashRing (hf key))).getD "" := by
    rw [ConsistentHash.Get, if_neg hlennz]
    exact nm.hash.GetNodeForHash_spec (hf key) hsort hne
  have hrmem : specFirstAtOrAfter nm.hash.hashRing (hf key) ∈ nm.hash.hashRing :=
    specFirstAtOrAfter_mem nm.hash.hashRing (hf key) hne
  have hprimmem : nm.hash.Get hf key ∈ ringNodeIds nm.hash := by
    rw [hget, ringNodeIds]
    exact List.mem_map_of_mem (fun h => (alLookup nm.hash.nodeMap h).getD "") hrmem
  have hpplt : (ringNodeIds nm.hash).findIdx (fun x => x == nm.hash.Get hf key) <
      (ringNodeIds nm.hash).length :=
    List.findIdx_lt_length_of_exists ⟨nm.hash.Get hf key, hprimmem, by simp⟩
  have hppval : (ringNodeIds nm.hash).getD
      ((ringNodeIds nm.hash).findIdx (fun x => x == nm.hash.Get hf key)) "" =
      nm.hash.Get hf key := by
    rw [List.getD_eq_getElem _ _ hpplt]
    have := @List.findIdx_getElem String (fun x => x == nm.hash.Get hf key)
      (ringNodeIds nm.hash) hpplt
    simpa using this
  have hj : nm.hash.hashRing.findIdx (fun h => nm.hash.GetNodeForHash h == nm.hash.Get hf key) =
      (ringNodeIds nm.hash).findIdx (fun x => x == nm.hash.Get hf key) := by
    rw [ringNodeIds, findIdx_map_comp]
    apply findIdx_congr
    intro h hh
    rw [GetNodeForHash_ring_mem nm.hash hsort h hh]
  have hcard1 : 1 ≤ (ringNodeIds nm.hash).toFinset.card := by
    have : (ringNodeIds nm.hash).toFinset.Nonempty := ⟨_, List.mem_toFinset.mpr hprimmem⟩
    exact Finset.card_pos.mpr this
  by_cases hbranch : n ≤ 1 ∨ nm.nodes.length ≤ 1
  · have hcode : nm.GetNodesForKey hf key n = [nm.hash.Get hf key] := by
      simp only [NodeManager.GetNodesForKey]
      rw [if_pos hbranch]
    rcases hbranch with hb1 | hb2
    · have hn1 : n = 1 := by omega
      subst hn1
      have hspec : ownersFromPrimaryFirst hf nm key 1 = [nm.hash.Get hf key] := by
        simp only [ownersFromPrimaryFirst]
        rcases addDistinct_append_exists
          (((ringNodeIds nm.hash).rotate
            ((ringNodeIds nm.hash).findIdx (fun x => x == nm.hash.Get hf key) + 1)).dropLast)
          [nm.hash.Get hf key] with ⟨s, hs⟩
        rw [hs]
        simp
      rw [hcode, hspec]
      refine ⟨rfl, rfl, List.nodup_singleton _, ?_⟩
      have hmin : min 1 (ringNodeIds nm.hash).toFinset.card = 1 := by omega
      rw [hmin]
      rfl
    · have hall : ∀ x ∈ ringNodeIds nm.hash, x = nm.hash.Get hf key := by
        intro x hx
        have hxk := hids1 x hx
        have hpk := hids1 _ hprimmem
        have hklen : (alKeys nm.nodes).length ≤ 1 := by
          simpa [alKeys] using hb2
        rcases hkl : alKeys nm.nodes with _ | ⟨k0, t⟩
        · rw [hkl] at hxk
          simp at hxk
        · rw [hkl] at hxk hpk hklen
          have ht : t = [] := by
            rcases t with _ | _
            · rfl
            · simp at hklen
          subst ht
          simp at hxk hpk
          rw [hxk, hpk]
      have hspec : ownersFromPrimaryFirst hf nm key n = [nm.hash.Get hf key] := by
        simp only [ownersFromPrimaryFirst]
        have hsub : ∀ x ∈ (((ringNodeIds nm.hash).rotate
            ((ringNodeIds nm.hash).findIdx (fun e => e == nm.hash.Get hf key) + 1)).dropLast),
            x ∈ [nm.hash.Get hf key] := by
          intro x hx
          have hx2 : x ∈ (ringNodeIds nm.hash).rotate
              ((ringNodeIds nm.hash).findIdx (fun e => e == nm.hash.Get hf key) + 1) :=
            List.dropLast_subset _ hx
          have hx3 : x ∈ ringNodeIds nm.hash := (List.rotate_perm _ _).subset hx2
          simp [hall x hx3]
        rw [addDistinct_of_all_mem _ _ hsub]
        exact List.take_of_length_le (by simpa using hn)
      have hcardeq : (ringNodeIds nm.hash).toFinset.card = 1 := by
        have : (ringNodeIds nm.hash).toFinset = {nm.hash.Get hf key} := by
          apply Finset.eq_singleton_iff_unique_mem.mpr
          refine ⟨List.mem_toFinset.mpr hprimmem, ?_⟩
          intro y hy
          exact hall y (List.mem_toFinset.mp hy)
        rw [this]
        rfl
      rw [hcode, hspec, hcardeq]
      refine ⟨rfl, rfl, List.nodup_singleton _, ?_⟩
      have hmin : min n 1 = 1 := by omega
      rw [hmin]
      rfl
  · have hnots : ¬(n ≤ 1 ∨ nm.nodes.length ≤ 1) := hbranch
    have hn2 : 2 ≤ n := by omega
    have hppne9 : ¬((ringNodeIds nm.hash).findIdx (fun x => x == nm.hash.Get hf key) =
        nm.hash.hashRing.length) := by
      rw [← hlenids]
      omega
    have hcode : nm.GetNodesForKey hf key n =
        gnfkLoop nm.hash nm.hash.hashRing.length
          ((ringNodeIds nm.hash).findIdx (fun x => x == nm.hash.Get hf key)) n
          nm.hash.hashRing.length 1 1 [nm.hash.Get hf key] := by
      simp only [NodeManager.GetNodesForKey]
      rw [if_neg hnots, hj, if_neg hppne9]
    have hloop := gnfkLoop_eq nm.hash nm.hash.hashRing.length
      ((ringNodeIds nm.hash).findIdx (fun x => x == nm.hash.Get hf key)) n
      nm.hash.hashRing.length 1 [nm.hash.Get hf key] (by omega) (by simp; omega)
    have hlen1 : ([nm.hash.Get hf key] : List String).length = 1 := rfl
    rw [hlen1] at hloop
    have hvis : (List.range' 1 (nm.hash.hashRing.length - 1)).map
        (fun j => nm.hash.GetNodeForHash
          (nm.hash.hashRing.getD
            (((ringNodeIds nm.hash).findIdx (fun x => x == nm.hash.Get hf key) + j) %
              nm.hash.hashRing.length) 0)) =
        ((ringNodeIds nm.hash).rotate
          ((ringNodeIds nm.hash).findIdx (fun x => x == nm.hash.Get hf key) + 1)).dropLast := by
      apply List.ext_getElem
      · simp [hlenids]
      · intro t h1 h2
        have ht : t < nm.hash.hashRing.length - 1 := by
          simpa using h1
        have hpos : (((ringNodeIds nm.hash).findIdx (fun x => x == nm.hash.Get hf key)) +
            (1 + t)) % nm.hash.hashRing.length < nm.hash.hashRing.length :=
          Nat.mod_lt _ hnnz
        rw [List.getElem_map, List.getElem_range']
        rw [List.getElem_dropLast, List.getElem_rotate]
        simp only [Nat.one_mul]
        rw [List.getD_eq_getElem _ _ hpos]
        have hmem : nm.hash.hashRing[(((ringNodeIds nm.hash).findIdx
            (fun x => x == nm.hash.Get hf key)) + (1 + t)) % nm.hash.hashRing.length] ∈
            nm.hash.hashRing := List.getElem_mem _
        rw [GetNodeForHash_ring_mem nm.hash hsort _ hmem]
        have hidx : (t + ((ringNodeIds nm.hash).findIdx (fun x => x == nm.hash.Get hf key) + 1))
            % (ringNodeIds nm.hash).length =
            (((ringNodeIds nm.hash).findIdx (fun x => x == nm.hash.Get hf key)) + (1 + t)) %
              nm.hash.hashRing.length := by
          rw [hlenids]
          congr 1
          omega
        rw [← List.getD_eq_getElem (ringNodeIds nm.hash) ""]
        rw [hidx]
        have hposids : (((ringNodeIds nm.hash).findIdx (fun x => x == nm.hash.Get hf key)) +
            (1 + t)) % nm.hash.hashRing.length < (ringNodeIds nm.hash).length := by
          rw [hlenids]
          exact hpos
        rw [List.getD_eq_getElem _ _ hposids]
        simp only [ringNodeIds, List.getElem_map]
    rw [hcode, hloop, hvis]
    have hrotlen : (((ringNodeIds nm.hash).rotate
        ((ringNodeIds nm.hash).findIdx (fun x => x == nm.hash.Get hf key) + 1))).length =
        nm.hash.hashRing.length := by
      simp [hlenids]
    have hrotne : ((ringNodeIds nm.hash).rotate
        ((ringNodeIds nm.hash).findIdx (fun x => x == nm.hash.Get hf key) + 1)) ≠ [] := by
      intro hc
      rw [hc] at hrotlen
      simp only [List.length_nil] at hrotlen
      omega
    have hlast : ((ringNodeIds nm.hash).rotate
        ((ringNodeIds nm.hash).findIdx (fun x => x == nm.hash.Get hf key) + 1)).getLast
        hrotne = nm.hash.Get hf key := by
      rw [List.getLast_eq_getElem, List.getElem_rotate]
      have hidx2 : ((((ringNodeIds nm.hash).rotate
          ((ringNodeIds nm.hash).findIdx (fun x => x == nm.hash.Get hf key) + 1)).length - 1) +
            ((ringNodeIds nm.hash).findIdx (fun x => x == nm.hash.Get hf key) + 1)) %
          (ringNodeIds nm.hash).length =
          (ringNodeIds nm.hash).findIdx (fun x => x == nm.hash.Get hf key) := by
        rw [hrotlen, hlenids]
        have h9 : nm.hash.hashRing.length - 1 +
            ((ringNodeIds nm.hash).findIdx (fun x => x == nm.hash.Get hf key) + 1) =
            (ringNodeIds nm.hash).findIdx (fun x => x == nm.hash.Get hf key) +
              nm.hash.hashRing.length := by
          omega
        rw [h9, Nat.add_mod_right]
        apply Nat.mod_eq_of_lt
        rw [← hlenids]
        exact hpplt
      rw [← List.getD_eq_getElem (ringNodeIds nm.hash) ""]
      rw [hidx2]
      exact hppval
    have hdecomp : ((ringNodeIds nm.hash).rotate
        ((ringNodeIds nm.hash).findIdx (fun x => x == nm.hash.Get hf key) + 1)).dropLast ++
        [nm.hash.Get hf key] =
        (ringNodeIds nm.hash).rotate
          ((ringNodeIds nm.hash).findIdx (fun x => x == nm.hash.Get hf key) + 1) := by
      have hd := List.dropLast_append_getLast hrotne
      rw [hlast] at hd
      exact hd
    have hTF : (addDistinct [nm.hash.Get hf key]
        (((ringNodeIds nm.hash).rotate
          ((ringNodeIds nm.hash).findIdx (fun x => x == nm.hash.Get hf key) + 1)).dropLast)).toFinset =
        (ringNodeIds nm.hash).toFinset := by
      rw [addDistinct_toFinset]
      have h1 : (ringNodeIds nm.hash).toFinset =
          ((ringNodeIds nm.hash).rotate
            ((ringNodeIds nm.hash).findIdx (fun x => x == nm.hash.Get hf key) + 1)).toFinset :=
        (List.toFinset_eq_of_perm _ _ (List.rotate_perm _ _)).symm
      rw [h1]
      conv_rhs => rw [← hdecomp]
      rw [List.toFinset_append]
      exact Finset.union_comm _ _
    have hadnodup : (addDistinct [nm.hash.Get hf key]
        (((ringNodeIds nm.hash).rotate
          ((ringNodeIds nm.hash).findIdx (fun x => x == nm.hash.Get hf key) + 1)).dropLast)).Nodup :=
      addDistinct_nodup _ _ (List.nodup_singleton _)
    rcases addDistinct_append_exists
      (((ringNodeIds nm.hash).rotate
        ((ringNodeIds nm.hash).findIdx (fun x => x == nm.hash.Get hf key) + 1)).dropLast)
      [nm.hash.Get hf key] with ⟨s, hs⟩
    refine ⟨rfl, ?_, ?_, ?_⟩
    · rw [hs]
      rcases n with _ | n0
      · omega
      · simp [List.take_succ_cons]
    · exact (List.take_sublist _ _).nodup hadnodup
    · rw [List.length_take]
      have hcardlen : (addDistinct [nm.hash.Get hf key]
          (((ringNodeIds nm.hash).rotate
            ((ringNodeIds nm.hash).findIdx
              (fun x => x == nm.hash.Get hf key) + 1)).dropLast)).length =
          (ringNodeIds nm.hash).toFinset.card := by
        rw [← hTF]
        exact (List.toFinset_card_of_nodup hadnodup).symm
      rw [hcardlen]

/-- Witness for the amended C5 on the concrete three-node cluster. -/
theorem claim_C5_owners_amended_witness :
    (NMWf exNm ∧ 1 ≤ 3) ∧
    (NodeManager.GetNodesForKey exHf exNm "k" 3 = ownersFromPrimaryFirst exHf exNm "k" 3 ∧
     (NodeManager.GetNodesForKey exHf exNm "k" 3).head? = some (exNm.hash.Get exHf "k") ∧
     (NodeManager.GetNodesForKey exHf exNm "k" 3).Nodup ∧
     (NodeManager.GetNodesForKey exHf exNm "k" 3).length =
       min 3 (ringNodeIds exNm.hash).toFinset.card) :=
  ⟨⟨by decide, by decide⟩, claim_C5_owners_amended exHf exNm "k" 3 (by decide) (by decide)⟩
